import Mathlib

/-!
Verification of the mqtt-to-i3x bridge core against its specification.

The development shallowly embeds the core subsystems of the bridge:
the subscription manager (src/subscriptions/manager.ts), the object store
(dist object-store, the version with relationship storage and placeholder
parents), the byte extractor (src/extraction/byte-extractor.ts), the codec
registry and builtin codecs (src/codecs), the topic-pattern template engine
(src/mapping/template.ts) and the payload decomposer
(src/mapping/decomposer.ts).

JavaScript `Map` objects are embedded as association lists (`Mp`) whose
`set` replaces in place (preserving insertion order) and otherwise appends,
exactly as a JS `Map` iterates.  JS `Set` objects become duplicate-free
lists with append-if-absent insertion.  Dot-segmented element ids are
embedded as their lists of (dot-free) segments; `a.b.c` becomes
`["a","b","c"]`, so `split('.')` is the identity of the representation and
`parts.slice(0,-1).join('.')` is `List.dropLast`.
-/

/-- Association-list embedding of a JavaScript `Map`. -/
abbrev Mp (α β : Type) : Type := List (α × β)

namespace Mp

variable {α β : Type} [DecidableEq α]

/-- Model of `Map.prototype.get`. -/
def get (k : α) : Mp α β → Option β
  | [] => none
  | (a, b) :: t => if a = k then some b else get k t

/-- Model of `Map.prototype.set`: replace in place, else append (insertion order). -/
def set (k : α) (v : β) : Mp α β → Mp α β
  | [] => [(k, v)]
  | (a, b) :: t => if a = k then (k, v) :: t else (a, b) :: set k v t

/-- Model of `Map.prototype.delete` (a JS map holds each key at most once,
so removing every binding of `k` is the same operation). -/
def erase (k : α) : Mp α β → Mp α β
  | [] => []
  | (a, b) :: t => if a = k then erase k t else (a, b) :: erase k t

/-- Entry-wise value update, used to embed `for (const [id, sub] of map)` loops
that mutate the values in place. -/
def mapValues (f : β → β) : Mp α β → Mp α β :=
  List.map (fun p => (p.1, f p.2))

end Mp

/-- Append-if-absent insertion, the embedding of `Set.prototype.add`. -/
def addElem {α : Type} [DecidableEq α] (x : α) (l : List α) : List α :=
  if x ∈ l then l else l ++ [x]

/-- Removal of an element, the embedding of `Set.prototype.delete`
(a JS set holds each element at most once). -/
def removeElem {α : Type} [DecidableEq α] (x : α) : List α → List α
  | [] => []
  | y :: t => if y = x then removeElem x t else y :: removeElem x t

/-! ## Subscription manager (src/subscriptions/manager.ts)

The queued payloads (`ObjectValue`) are opaque to every queue-related
operation, so the manager is embedded generically in the value type `V`.
`randomUUID()` and `new Date().toISOString()` are ambient inputs and are
passed as arguments to `create`.  The SSE side (`sseConnections`) only
performs socket I/O and never touches a pending queue; it is embedded as
the set of subscription ids holding a connection. -/

/-- Embedding of the `Subscription` record of manager.ts. -/
structure Subscription (V : Type) where
  subscriptionId : String
  createdAt : String
  monitoredItems : List String
  maxDepth : Nat
  pendingQueue : List V
  queueHighWaterMark : Nat
  deriving Repr, DecidableEq

/-- Mutable state of a `SubscriptionManager`. -/
structure SubMgr (V : Type) where
  subscriptions : Mp String (Subscription V)
  sseConnections : List String
  deriving Repr, DecidableEq

namespace SubMgr

variable {V : Type}

/-- Default used by `create` when no queueHighWaterMark option is given. -/
def DEFAULT_QUEUE_HIGH_WATER_MARK : Nat := 10000

/-- Default used by `create` when no maxDepth option is given. -/
def DEFAULT_MAX_DEPTH : Nat := 0

/-- Empty manager (`new SubscriptionManager()`). -/
def initial : SubMgr V := ⟨[], []⟩

/-- Embedding of `SubscriptionManager.create`; `uuid` stands for the fresh
`randomUUID()` and `now` for `new Date().toISOString()`. -/
def create (s : SubMgr V) (uuid now : String) (monitoredItems : Option (List String))
    (maxDepth : Option Nat) (queueHighWaterMark : Option Nat) : SubMgr V :=
  let sub : Subscription V :=
    { subscriptionId := uuid
      createdAt := now
      monitoredItems := (monitoredItems.getD []).foldl (fun acc i => addElem i acc) []
      maxDepth := maxDepth.getD DEFAULT_MAX_DEPTH
      pendingQueue := []
      queueHighWaterMark := queueHighWaterMark.getD DEFAULT_QUEUE_HIGH_WATER_MARK }
  { s with subscriptions := s.subscriptions.set uuid sub }

/-- Embedding of `SubscriptionManager.register`. -/
def register (s : SubMgr V) (subscriptionId : String) (elementIds : List String) : SubMgr V :=
  match s.subscriptions.get subscriptionId with
  | none => s
  | some sub =>
      let sub' := { sub with
        monitoredItems := elementIds.foldl (fun acc i => addElem i acc) sub.monitoredItems }
      { s with subscriptions := s.subscriptions.set subscriptionId sub' }

/-- Embedding of `SubscriptionManager.unregister`. -/
def unregister (s : SubMgr V) (subscriptionId : String) (elementIds : List String) : SubMgr V :=
  match s.subscriptions.get subscriptionId with
  | none => s
  | some sub =>
      let sub' := { sub with
        monitoredItems := elementIds.foldl (fun acc i => removeElem i acc) sub.monitoredItems }
      { s with subscriptions := s.subscriptions.set subscriptionId sub' }

/-- Queue update performed by `notifyChange` on one matching subscription:
`if (pendingQueue.length >= queueHighWaterMark) pendingQueue.shift(); pendingQueue.push(value)`. -/
def pushBounded (queue : List V) (hwm : Nat) (v : V) : List V :=
  (if queue.length ≥ hwm then queue.tail else queue) ++ [v]

/-- Embedding of `SubscriptionManager.notifyChange`. The SSE write is pure
I/O (and on failure only drops the SSE binding), so the state effect is the
queue update on every subscription monitoring `elementId`. -/
def notifyChange (s : SubMgr V) (elementId : String) (v : V) : SubMgr V :=
  { s with subscriptions := s.subscriptions.mapValues (fun sub =>
      if elementId ∈ sub.monitoredItems then
        { sub with pendingQueue := pushBounded sub.pendingQueue sub.queueHighWaterMark v }
      else sub) }

/-- Embedding of `SubscriptionManager.sync`: drain and return the queue. -/
def sync (s : SubMgr V) (subscriptionId : String) : Option (List V) × SubMgr V :=
  match s.subscriptions.get subscriptionId with
  | none => (none, s)
  | some sub =>
      (some sub.pendingQueue,
       { s with subscriptions :=
           s.subscriptions.set subscriptionId { sub with pendingQueue := [] } })

/-- Embedding of `SubscriptionManager.delete`. -/
def delete (s : SubMgr V) (subscriptionId : String) : SubMgr V :=
  { subscriptions := s.subscriptions.erase subscriptionId
    sseConnections := removeElem subscriptionId s.sseConnections }

/-- One SubscriptionManager operation, for reachability statements. -/
inductive Op (V : Type) where
  | create (uuid now : String) (monitoredItems : Option (List String))
      (maxDepth : Option Nat) (queueHighWaterMark : Option Nat)
  | register (subscriptionId : String) (elementIds : List String)
  | unregister (subscriptionId : String) (elementIds : List String)
  | notifyChange (elementId : String) (v : V)
  | sync (subscriptionId : String)
  | delete (subscriptionId : String)

/-- Apply one operation. A `sync` is applied for its state effect. -/
def applyOp (s : SubMgr V) : Op V → SubMgr V
  | .create uuid now mi md hwm => s.create uuid now mi md hwm
  | .register id ids => s.register id ids
  | .unregister id ids => s.unregister id ids
  | .notifyChange e v => s.notifyChange e v
  | .sync id => (s.sync id).2
  | .delete id => s.delete id

/-- Apply a sequence of operations from the empty manager. -/
def run (ops : List (Op V)) : SubMgr V :=
  ops.foldl applyOp initial

/-- Queue-bound invariant that actually holds on reachable states:
every pending queue is bounded by `max queueHighWaterMark 1`. -/
def QInv (s : SubMgr V) : Prop :=
  ∀ id sub, s.subscriptions.get id = some sub →
    sub.pendingQueue.length ≤ max sub.queueHighWaterMark 1

end SubMgr

/-! ## Decoded values

Decoded MQTT payloads are untyped JavaScript values (null, boolean, number,
string, raw bytes, array, object).  Object fields keep JS insertion order.
Numbers are embedded as integers: every numeric computation the verified
claims touch (byte assembly, sign adjustment) is exact integer arithmetic;
the IEEE-754 reading done by the float codecs is represented by the
assembled bit pattern (see float32/float64 below). -/

inductive JVal where
  | jnull
  | jbool (b : Bool)
  | jnum (n : Int)
  | jstr (s : String)
  | jbytes (bs : List Nat)
  | jarr (elems : List JVal)
  | jobj (fields : List (String × JVal))

/-! ## Codec registry and builtin codecs (src/codecs)

A codec's `decode` may throw; a thrown JS exception is embedded as the
`Except.error` branch.  Decoder options are a JS object consulted only for
its `endian` field. -/

/-- Embedding of src/codecs/types.ts `Codec`. -/
structure Codec where
  name : String
  decode : List Nat → Option (Mp String String) → Except String (Option JVal)

/-- Embedding of `getEndian`: `options?.endian ?? 'big'`. Codecs compare the
result against the string `'big'`, so any other value selects little-endian. -/
def getEndian (options : Option (Mp String String)) : String :=
  match options with
  | none => "big"
  | some m => (m.get "endian").getD "big"

namespace CodecRegistry

/-- Embedding of `CodecRegistry.register`: later registration overwrites. -/
def register (reg : Mp String Codec) (codec : Codec) : Mp String Codec :=
  reg.set codec.name codec

/-- Embedding of `CodecRegistry.decode`: unknown name yields undefined, and
any exception inside the codec is converted to undefined. -/
def decode (reg : Mp String Codec) (name : String) (input : List Nat)
    (options : Option (Mp String String)) : Option JVal :=
  match reg.get name with
  | none => none
  | some c =>
      match c.decode input options with
      | .error _ => none
      | .ok v => v

end CodecRegistry

/-- Builtin `raw` codec: pass-through bytes. -/
def raw : Codec :=
  ⟨"raw", fun input _ => .ok (some (.jbytes input))⟩

/-- Builtin `uint8` codec: `input.length >= 1 ? input[0] : undefined`. -/
def uint8 : Codec :=
  ⟨"uint8", fun input _ =>
    .ok (if input.length ≥ 1 then some (.jnum (input.getD 0 0)) else none)⟩

/-- Signed reading of a byte (`readInt8`). -/
def toInt8 (b : Nat) : Int :=
  if b ≥ 128 then (b : Int) - 256 else b

/-- Builtin `int8` codec. -/
def int8 : Codec :=
  ⟨"int8", fun input _ =>
    .ok (if input.length ≥ 1 then some (.jnum (toInt8 (input.getD 0 0))) else none)⟩

/-- Unsigned 16-bit read at offset 0 (`readUInt16BE` / `readUInt16LE`). -/
def readU16 (input : List Nat) (bigEndian : Bool) : Nat :=
  if bigEndian then input.getD 0 0 * 256 + input.getD 1 0
  else input.getD 1 0 * 256 + input.getD 0 0

/-- Builtin `uint16` codec. -/
def uint16 : Codec :=
  ⟨"uint16", fun input options =>
    .ok (if input.length < 2 then none
         else some (.jnum (readU16 input (getEndian options = "big"))))⟩

/-- Sign adjustment for a 16-bit value (`readInt16*`). -/
def toInt16 (u : Nat) : Int :=
  if u ≥ 2 ^ 15 then (u : Int) - 2 ^ 16 else u

/-- Builtin `int16` codec. -/
def int16 : Codec :=
  ⟨"int16", fun input options =>
    .ok (if input.length < 2 then none
         else some (.jnum (toInt16 (readU16 input (getEndian options = "big")))))⟩

/-- Unsigned 32-bit read at offset 0 (`readUInt32BE` / `readUInt32LE`). -/
def readU32 (input : List Nat) (bigEndian : Bool) : Nat :=
  if bigEndian then
    ((input.getD 0 0 * 256 + input.getD 1 0) * 256 + input.getD 2 0) * 256 + input.getD 3 0
  else
    ((input.getD 3 0 * 256 + input.getD 2 0) * 256 + input.getD 1 0) * 256 + input.getD 0 0

/-- Builtin `uint32` codec. -/
def uint32 : Codec :=
  ⟨"uint32", fun input options =>
    .ok (if input.length < 4 then none
         else some (.jnum (readU32 input (getEndian options = "big"))))⟩

/-- Sign adjustment for a 32-bit value (`readInt32*`). -/
def toInt32 (u : Nat) : Int :=
  if u ≥ 2 ^ 31 then (u : Int) - 2 ^ 32 else u

/-- Builtin `int32` codec. -/
def int32 : Codec :=
  ⟨"int32", fun input options =>
    .ok (if input.length < 4 then none
         else some (.jnum (toInt32 (readU32 input (getEndian options = "big")))))⟩

/-- Builtin `float32` codec (`readFloatBE`/`readFloatLE`).  The assembled
32-bit pattern stands for the IEEE-754 single it denotes; the claims under
verification concern only the length guard, which is embedded exactly. -/
def float32 : Codec :=
  ⟨"float32", fun input options =>
    .ok (if input.length < 4 then none
         else some (.jnum (readU32 input (getEndian options = "big"))))⟩

/-- Unsigned 64-bit read at offset 0, byte order per endianness. -/
def readU64 (input : List Nat) (bigEndian : Bool) : Nat :=
  if bigEndian then
    (List.range 8).foldl (fun acc i => acc * 256 + input.getD i 0) 0
  else
    (List.range 8).foldl (fun acc i => acc * 256 + input.getD (7 - i) 0) 0

/-- Builtin `float64` codec (`readDoubleBE`/`readDoubleLE`); bit pattern as
for float32. -/
def float64 : Codec :=
  ⟨"float64", fun input options =>
    .ok (if input.length < 8 then none
         else some (.jnum (readU64 input (getEndian options = "big"))))⟩

/-- Builtin `protobuf` stub: always undefined. -/
def protobuf : Codec := ⟨"protobuf", fun _ _ => .ok none⟩

/-- Builtin `msgpack` stub: always undefined. -/
def msgpack : Codec := ⟨"msgpack", fun _ _ => .ok none⟩

/-- Codec that always throws, exercising the registry's catch branch. -/
def throwingCodec : Codec := ⟨"bad", fun _ _ => .error "boom"⟩

/-! ## Byte extractor (src/extraction/byte-extractor.ts)

Buffers are lists of bytes.  Bits are indexed MSB-first, as the source
does: bit `n` of a buffer lives in byte `n / 8` at in-byte position
`7 - n % 8`.  Offsets and lengths arrive as JS numbers and are embedded as
integers (the source explicitly guards against negative values). -/

/-- Bit `n` of a byte list, MSB-first: `(payload[n >> 3] >> (7 - n % 8)) & 1`. -/
def bitAt (bytes : List Nat) (n : Nat) : Bool :=
  Nat.testBit (bytes.getD (n / 8) 0) (7 - n % 8)

/-- Setting bit `b` (MSB-first) of a byte list:
`result[b >> 3] |= 1 << (7 - b % 8)`. -/
def setBit (l : List Nat) (b : Nat) : List Nat :=
  l.set (b / 8) (l.getD (b / 8) 0 ||| (1 <<< (7 - b % 8)))

/-- Embedding of the `ByteExtraction` spec record. -/
structure ByteExtraction where
  bitOffset : Option Int := none
  bitLength : Option Int := none
  byteOffset : Option Int := none
  byteLength : Option Int := none
  endian : Option String := none

/-- Effective bit count of an extraction:
`Math.min(bitLength, totalBits - bitOffset)` with `totalBits = payload.length * 8`. -/
def effBits (payload : List Nat) (bitOffset bitLength : Int) : Nat :=
  (min bitLength (8 * (payload.length : Int) - bitOffset)).toNat

/-- Byte count of the allocated result: `Math.ceil(effectiveLength / 8)`. -/
def resultBytesOf (payload : List Nat) (bitOffset bitLength : Int) : Nat :=
  (effBits payload bitOffset bitLength + 7) / 8

/-- The bit-copy loop of `extractBits`: for each `i < n` copy source bit
`off + i` into destination bit `pad + i`. -/
def copyBits (payload : List Nat) (off pad n : Nat) (acc : List Nat) : List Nat :=
  (List.range n).foldl
    (fun a i => if bitAt payload (off + i) then setBit a (pad + i) else a) acc

/-- Embedding of `extractBits`: guard degenerate inputs, truncate the run to
the available range, allocate `ceil(effectiveLength / 8)` zero bytes and
copy the bits right-aligned (destination bit `resultBytes * 8 - eff + i`). -/
def extractBits (payload : List Nat) (bitOffset bitLength : Int) : List Nat :=
  if bitLength ≤ 0 ∨ bitOffset < 0 then [] else
  if 8 * (payload.length : Int) ≤ bitOffset then [] else
  copyBits payload bitOffset.toNat
    (resultBytesOf payload bitOffset bitLength * 8 - effBits payload bitOffset bitLength)
    (effBits payload bitOffset bitLength)
    (List.replicate (resultBytesOf payload bitOffset bitLength) 0)

/-- Embedding of `extract`: no spec (or neither offset set) passes the
payload through, a bit spec dispatches to `extractBits`, otherwise a byte
slice is taken with out-of-range slices yielding an empty buffer. -/
def extract (payload : List Nat) (spec : Option ByteExtraction) : List Nat :=
  match spec with
  | none => payload
  | some sp =>
    if sp.bitOffset = none ∧ sp.byteOffset = none then payload
    else
      match sp.bitOffset, sp.bitLength with
      | some bo, some bl => extractBits payload bo bl
      | _, _ =>
        match sp.byteOffset with
        | some start =>
            let len : Int := sp.byteLength.getD ((payload.length : Int) - start)
            let stop : Int := start + len
            if start < 0 ∨ (payload.length : Int) < stop then []
            else (payload.drop start.toNat).take (stop - start).toNat
        | none => payload

/-! ## Payload decomposer (src/mapping/decomposer.ts)

The decomposer walks a decoded object.  Mapper-level element ids are plain
strings here, as in the source.  `Buffer` leaves cannot occur inside
decoded JSON, so `JVal.jbytes` is treated as a non-object scalar. -/

/-- Decomposition strategy union from config/loader.ts. -/
inductive Strategy where
  | abelara
  | flat
  | auto
  deriving Repr, DecidableEq

/-- Child id strategy union from config/loader.ts. -/
inductive ChildIdStrategy where
  | dotAppend
  | path
  deriving Repr, DecidableEq

/-- Embedding of `DecomposeConfig`. -/
structure DecomposeConfig where
  enabled : Bool
  strategy : Strategy
  root : Option String := none
  childIdStrategy : Option ChildIdStrategy := none
  maxDepth : Option Nat := none
  excludeFields : Option (List String) := none

/-- Embedding of the mapper's `ObjectValue` (string element ids). -/
structure MappedValue where
  elementId : String
  value : JVal
  timestamp : String
  quality : Option String

/-- Embedding of the mapper's `ObjectInstance` (string element ids). -/
structure MappedInstance where
  elementId : String
  displayName : String
  typeId : String
  isComposition : Bool
  namespaceUri : String

/-- Embedding of `MappedResult` (the field `instance` is a Lean keyword and
is embedded as `inst`). -/
structure MappedResult where
  elementId : String
  value : MappedValue
  inst : MappedInstance

/-- Embedding of `DecomposedEntry`. -/
structure DecomposedEntry where
  result : MappedResult
  parentComponentId : String

/-- The fixed marker set `{_model, _name, _path}`. -/
def ABELARA_META : List String := ["_model", "_name", "_path"]

/-- Embedding of `sanitize`: `key.replace(/[./]/g, '_')`. -/
def sanitize (key : String) : String :=
  String.map (fun c => if c = '.' ∨ c = '/' then '_' else c) key

/-- JS check `typeof v === 'string'` on an optional object field. -/
def isStringField (v : Option JVal) : Bool :=
  match v with
  | some (.jstr _) => true
  | _ => false

namespace PayloadDecomposer

/-- Embedding of `PayloadDecomposer.isChild`. -/
def isChild (obj : List (String × JVal)) (strategy : Strategy) : Bool :=
  match strategy with
  | .abelara => isStringField (Mp.get "_name" obj) || isStringField (Mp.get "_model" obj)
  | .flat => obj.length > 0
  | .auto =>
      (isStringField (Mp.get "_name" obj) || isStringField (Mp.get "_model" obj)) ||
      obj.length > 0

/-- Embedding of `PayloadDecomposer.childId`. -/
def childId (parentId key : String) (obj : List (String × JVal))
    (strategy : Option ChildIdStrategy) : String :=
  match strategy, Mp.get "_path" obj with
  | some .path, some (.jstr p) => String.map (fun c => if c = '/' then '.' else c) p
  | _, _ => parentId ++ "." ++ sanitize key

/-- Embedding of `PayloadDecomposer.displayName`. -/
def displayName (key : String) (obj : List (String × JVal)) (strategy : Strategy) : String :=
  match strategy, Mp.get "_name" obj with
  | .abelara, some (.jstr s) => s
  | .auto, some (.jstr s) => s
  | _, _ => key

/-- Embedding of `PayloadDecomposer.typeId`: last slash-segment of `_model`
for the abelara strategies, else `DecomposedComponent`. -/
def typeId (obj : List (String × JVal)) (strategy : Strategy) : String :=
  match strategy, Mp.get "_model" obj with
  | .abelara, some (.jstr m) => (m.splitOn "/").getLastD ""
  | .auto, some (.jstr m) => (m.splitOn "/").getLastD ""
  | _, _ => "DecomposedComponent"

/-- JS check for a nested mapping:
`typeof value === 'object' && value !== null && !Array.isArray(value)`. -/
def isObjVal (v : JVal) : Bool :=
  match v with
  | .jobj _ => true
  | _ => false

/-- Embedding of `PayloadDecomposer.scalars`: the shallow non-object,
non-array fields minus excluded and marker fields. -/
def scalars (obj : List (String × JVal)) (exclude : List String) :
    List (String × JVal) :=
  obj.filter (fun p =>
    !(exclude.contains p.1) && !(ABELARA_META.contains p.1) && !(isObjVal p.2))

mutual

/-- Embedding of `PayloadDecomposer.walk`; the `out` accumulator becomes the
returned entry list, in push order. -/
def walk (obj : List (String × JVal)) (parentId ns timestamp : String)
    (quality : Option String) (config : DecomposeConfig) (exclude : List String)
    (depth maxDepth : Nat) : List DecomposedEntry :=
  if maxDepth ≠ 0 ∧ depth ≥ maxDepth then []
  else walkEntries obj parentId ns timestamp quality config exclude depth maxDepth

/-- The `for (const [key, value] of Object.entries(obj))` loop body of `walk`. -/
def walkEntries (obj : List (String × JVal)) (parentId ns timestamp : String)
    (quality : Option String) (config : DecomposeConfig) (exclude : List String)
    (depth maxDepth : Nat) : List DecomposedEntry :=
  match obj with
  | [] => []
  | (key, value) :: rest =>
    if exclude.contains key || ABELARA_META.contains key then
      walkEntries rest parentId ns timestamp quality config exclude depth maxDepth
    else
      match value with
      | .jobj fields =>
        if isChild fields config.strategy then
          let cid := childId parentId key fields config.childIdStrategy
          let sc := scalars fields exclude
          { result :=
              { elementId := cid
                value :=
                  { elementId := cid
                    value := if sc.length > 0 then .jobj sc else .jnull
                    timestamp := timestamp
                    quality := quality }
                inst :=
                  { elementId := cid
                    displayName := displayName key fields config.strategy
                    typeId := typeId fields config.strategy
                    isComposition := false
                    namespaceUri := ns } }
            parentComponentId := parentId } ::
          (walk fields cid ns timestamp quality config exclude (depth + 1) maxDepth ++
           walkEntries rest parentId ns timestamp quality config exclude depth maxDepth)
        else
          { result :=
              { elementId := parentId ++ "." ++ sanitize key
                value :=
                  { elementId := parentId ++ "." ++ sanitize key
                    value := value
                    timestamp := timestamp
                    quality := quality }
                inst :=
                  { elementId := parentId ++ "." ++ sanitize key
                    displayName := key
                    typeId := "ScalarProperty"
                    isComposition := false
                    namespaceUri := ns } }
            parentComponentId := parentId } ::
          walkEntries rest parentId ns timestamp quality config exclude depth maxDepth
      | _ =>
          { result :=
              { elementId := parentId ++ "." ++ sanitize key
                value :=
                  { elementId := parentId ++ "." ++ sanitize key
                    value := value
                    timestamp := timestamp
                    quality := quality }
                inst :=
                  { elementId := parentId ++ "." ++ sanitize key
                    displayName := key
                    typeId := "ScalarProperty"
                    isComposition := false
                    namespaceUri := ns } }
            parentComponentId := parentId } ::
          walkEntries rest parentId ns timestamp quality config exclude depth maxDepth

end

end PayloadDecomposer

/-! ## Object store (dist object-store, the relationship-bearing version)

Element ids are dot-segmented strings; they are embedded as their segment
lists (`a.b.c` is `["a","b","c"]`), on which `id.split('.')` is the
identity and `parts.slice(0,-1).join('.')` is `List.dropLast`.  Type ids,
namespace URIs and relationship-type ids are plain strings.  Change
listeners are arbitrary callbacks; they are embedded as an opaque list, and
`upsert` reports the notification delivered to each of them. -/

/-- Segment-list element id. -/
abbrev Eid : Type := List String

/-- Embedding of the stored `ObjectValue` (schema-mapper shape). -/
structure OValue where
  elementId : Eid
  value : JVal
  timestamp : String
  quality : Option String

/-- Embedding of `ObjectInstance`. -/
structure OInstance where
  elementId : Eid
  displayName : String
  typeId : String
  namespaceUri : String
  isComposition : Bool
  deriving Repr, DecidableEq

/-- Embedding of a stored relationship entry
`{ targetElementId, relationshipTypeId }`. -/
structure Relationship where
  targetElementId : Eid
  relationshipTypeId : String
  deriving DecidableEq

/-- Embedding of `ObjectType` (the optional JSON schema is irrelevant to
every verified claim and is carried as an opaque optional value). -/
structure ObjectType where
  elementId : String
  displayName : String
  namespaceUri : String
  schema : Option JVal := none

/-- Embedding of the `Namespace` record. -/
structure NamespaceRec where
  uri : String
  displayName : String

/-- Embedding of `RelationshipType`. -/
structure RelationshipType where
  elementId : String
  displayName : String
  namespaceUri : String
  reverseOf : String

/-- Mutable state of an `ObjectStore`. -/
structure ObjectStore where
  values : Mp Eid OValue
  instances : Mp Eid OInstance
  types : Mp String ObjectType
  namespaces : Mp String NamespaceRec
  byNamespace : Mp String (List Eid)
  byType : Mp String (List Eid)
  relationshipTypes : Mp String RelationshipType
  relationships : Mp Eid (List Relationship)
  targetIndex : Mp Eid (List Eid)
  listeners : List Unit

namespace ObjectStore

/-- The four built-in relationship types seeded by the constructor. -/
def seedBuiltInRelationshipTypes : Mp String RelationshipType :=
  [("HasParent", ⟨"HasParent", "Has Parent", "urn:i3x:relationships", "HasChildren"⟩),
   ("HasChildren", ⟨"HasChildren", "Has Children", "urn:i3x:relationships", "HasParent"⟩),
   ("HasComponent", ⟨"HasComponent", "Has Component", "urn:i3x:relationships", "ComponentOf"⟩),
   ("ComponentOf", ⟨"ComponentOf", "Component Of", "urn:i3x:relationships", "HasComponent"⟩)]

/-- Freshly constructed store. -/
def initial : ObjectStore :=
  { values := [], instances := [], types := [], namespaces := [], byNamespace := [],
    byType := [], relationshipTypes := seedBuiltInRelationshipTypes,
    relationships := [], targetIndex := [], listeners := [] }

/-- Embedding of `addToIndex` (create-then-add on a keyed set). -/
def addToIndex (index : Mp String (List Eid)) (key : String) (elementId : Eid) :
    Mp String (List Eid) :=
  index.set key (addElem elementId ((index.get key).getD []))

/-- Embedding of `removeFromIndex` (delete, erasing the entry when empty). -/
def removeFromIndex (index : Mp String (List Eid)) (key : String) (elementId : Eid) :
    Mp String (List Eid) :=
  match index.get key with
  | none => index
  | some set =>
      if (removeElem elementId set).length = 0 then index.erase key
      else index.set key (removeElem elementId set)

/-- Embedding of `inferParentId`: all but the last dot-segment. -/
def inferParentId (elementId : Eid) : Option Eid :=
  if elementId.length ≤ 1 then none else some elementId.dropLast

/-- Forward relationship list of an element (`relationships.get(id) ?? []`). -/
def relsOf (s : ObjectStore) (elementId : Eid) : List Relationship :=
  (s.relationships.get elementId).getD []

/-- Reverse-index source set of a target (`targetIndex.get(id) ?? []`). -/
def tidxOf (s : ObjectStore) (targetId : Eid) : List Eid :=
  (s.targetIndex.get targetId).getD []

/-- Embedding of `addRelationship`: a duplicate triple is a no-op,
otherwise the edge is appended and the reverse index updated. -/
def addRelationship (s : ObjectStore) (sourceId targetId : Eid) (typeId : String) :
    ObjectStore :=
  if (relsOf s sourceId).any
      (fun r => decide (r.targetElementId = targetId ∧ r.relationshipTypeId = typeId)) then s
  else
    { s with
      relationships := s.relationships.set sourceId
        (relsOf s sourceId ++ [⟨targetId, typeId⟩]),
      targetIndex := s.targetIndex.set targetId
        (addElem sourceId (tidxOf s targetId)) }

/-- Reverse-index cleanup step shared by `removeRelationshipsByType`:
drop `elementId` from `targetIndex[target]` when no remaining edge of
`elementId` still points at `target`. -/
def cleanupReverse (elementId : Eid) (remaining : List Relationship)
    (acc : ObjectStore) (rel : Relationship) : ObjectStore :=
  if remaining.any (fun r => decide (r.targetElementId = rel.targetElementId)) then acc
  else
    match acc.targetIndex.get rel.targetElementId with
    | none => acc
    | some sources =>
        if (removeElem elementId sources).length = 0 then
          { acc with targetIndex := acc.targetIndex.erase rel.targetElementId }
        else
          { acc with targetIndex :=
              (acc.targetIndex.set rel.targetElementId (removeElem elementId sources)) }

/-- Embedding of `removeRelationshipsByType`. -/
def removeRelationshipsByType (s : ObjectStore) (elementId : Eid) (typeId : String) :
    ObjectStore :=
  match s.relationships.get elementId with
  | none => s
  | some rels =>
      if (rels.filter (fun r => decide (r.relationshipTypeId = typeId))).length = 0 then s
      else
        (rels.filter (fun r => decide (r.relationshipTypeId = typeId))).foldl
          (cleanupReverse elementId (rels.filter (fun r => decide (r.relationshipTypeId ≠ typeId))))
          (if (rels.filter (fun r => decide (r.relationshipTypeId ≠ typeId))).length = 0 then
            { s with relationships := s.relationships.erase elementId }
          else
            { s with relationships :=
                (s.relationships.set elementId
                  (rels.filter (fun r => decide (r.relationshipTypeId ≠ typeId)))) })

/-- Outgoing half of `clearRelationships`: remove `elementId` from the
reverse entry of each of its forward targets. -/
def clearOutgoingStep (elementId : Eid) (acc : ObjectStore) (rel : Relationship) :
    ObjectStore :=
  match acc.targetIndex.get rel.targetElementId with
  | none => acc
  | some sources =>
      if (removeElem elementId sources).length = 0 then
        { acc with targetIndex := acc.targetIndex.erase rel.targetElementId }
      else
        { acc with targetIndex :=
            (acc.targetIndex.set rel.targetElementId (removeElem elementId sources)) }

/-- Incoming half of `clearRelationships`: filter `elementId` out of one
source's forward list. -/
def clearIncomingStep (elementId : Eid) (acc : ObjectStore) (sourceId : Eid) :
    ObjectStore :=
  match acc.relationships.get sourceId with
  | none => acc
  | some rels =>
      if (rels.filter (fun r => decide (r.targetElementId ≠ elementId))).length = 0 then
        { acc with relationships := acc.relationships.erase sourceId }
      else
        { acc with relationships :=
            (acc.relationships.set sourceId
              (rels.filter (fun r => decide (r.targetElementId ≠ elementId)))) }

/-- First half of `clearRelationships`: walk the forward edges, update the
reverse index, then drop the forward entry. -/
def clearOutgoing (s : ObjectStore) (elementId : Eid) : ObjectStore :=
  match s.relationships.get elementId with
  | none => s
  | some outgoing =>
      { (outgoing.foldl (clearOutgoingStep elementId) s) with
        relationships :=
          ((outgoing.foldl (clearOutgoingStep elementId) s)).relationships.erase elementId }

/-- Second half of `clearRelationships`: walk the reverse index for this
id, filter those sources' forward lists, then drop the reverse entry. -/
def clearIncoming (s : ObjectStore) (elementId : Eid) : ObjectStore :=
  match s.targetIndex.get elementId with
  | none => s
  | some incomingSources =>
      { (incomingSources.foldl (clearIncomingStep elementId) s) with
        targetIndex :=
          ((incomingSources.foldl (clearIncomingStep elementId) s)).targetIndex.erase elementId }

/-- Embedding of `clearRelationships` (both directions). -/
def clearRelationships (s : ObjectStore) (elementId : Eid) : ObjectStore :=
  clearIncoming (clearOutgoing s elementId) elementId

/-- Direct placeholder storage of `ensureParentExists`: set the placeholder
value and instance and index them (bypassing `upsert`, as the source does
to avoid recursion through it). -/
def placeStore (s : ObjectStore) (parentId : Eid) (childNamespaceUri now : String) :
    ObjectStore :=
  { s with
    values := s.values.set parentId ⟨parentId, .jnull, now, some "uncertain"⟩,
    instances := s.instances.set parentId
      ⟨parentId, parentId.getLastD "", "Placeholder", childNamespaceUri, false⟩,
    byNamespace := addToIndex s.byNamespace childNamespaceUri parentId,
    byType := addToIndex s.byType "Placeholder" parentId }

/-- JS falsiness of a dot-joined id string: `parts.join('.')` is the empty
string (falsy) exactly for no segments or a single empty segment; any list
of two or more segments joins with a dot in between and is truthy. -/
def idFalsy (p : Eid) : Bool := decide (p = [] ∨ p = [""])

/-- Recursion worker for `ensureParentExists`.  The source recurses on the
parent prefix, which is one segment shorter each time; `fuel` makes that
measure explicit and equals the current id's segment count at every call
(every representable id has at least one segment, so the fuel-exhausted
branch is unreachable).  The source guards the recursion with
`if (grandparentId)`: a grandparent id that joins to the empty string is
falsy, so no placeholder is created for it and no edges are added. -/
def ensureParentExistsGo : Nat → ObjectStore → Eid → String → String → ObjectStore
  | 0, s, _, _, _ => s
  | fuel + 1, s, parentId, childNamespaceUri, now =>
    if (s.instances.get parentId).isSome then s
    else
      match inferParentId parentId with
      | none => placeStore s parentId childNamespaceUri now
      | some grandparentId =>
          if idFalsy grandparentId then placeStore s parentId childNamespaceUri now
          else
            addRelationship
              (addRelationship
                (ensureParentExistsGo fuel
                  (placeStore s parentId childNamespaceUri now)
                  grandparentId childNamespaceUri now)
                parentId grandparentId "HasParent")
              grandparentId parentId "HasChildren"

/-- Embedding of `ensureParentExists`: create a `Placeholder` instance and
value for the missing parent, index it, then recurse toward the root and
link each placeholder to its own parent.  `now` stands for
`new Date().toISOString()`. -/
def ensureParentExists (s : ObjectStore) (parentId : Eid) (childNamespaceUri now : String) :
    ObjectStore :=
  ensureParentExistsGo parentId.length s parentId childNamespaceUri now

/-- The existing-instance branch of `upsert`: drop the previous instance
from the namespace and type indices. -/
def reindexExisting (s : ObjectStore) (elementId : Eid) : ObjectStore :=
  match s.instances.get elementId with
  | none => s
  | some existing =>
      { s with
        byNamespace := removeFromIndex s.byNamespace existing.namespaceUri elementId,
        byType := removeFromIndex s.byType existing.typeId elementId }

/-- Installation of a supplied instance: replace the previous index
entries, store the instance, index it. -/
def installInstance (s : ObjectStore) (elementId : Eid) (instv : OInstance) : ObjectStore :=
  { (reindexExisting s elementId) with
    instances := ((reindexExisting s elementId)).instances.set elementId instv,
    byNamespace := addToIndex ((reindexExisting s elementId)).byNamespace
      instv.namespaceUri elementId,
    byType := addToIndex ((reindexExisting s elementId)).byType instv.typeId elementId }

/-- The parent-inference tail of `upsert`: ensure the (placeholder) parent
chain, clear old organizational edges, re-create the bidirectional pair.
The whole block sits under the source's `if (parentId)` truthiness guard:
a parent id that joins to the empty string (an elementId with a single
leading dot, e.g. `.x`) is falsy and the block is skipped entirely. -/
def linkParent (s : ObjectStore) (elementId : Eid) (instv : OInstance) (now : String) :
    ObjectStore :=
  match inferParentId elementId with
  | none => s
  | some parentId =>
      if idFalsy parentId then s
      else
        addRelationship
          (addRelationship
            (removeRelationshipsByType
              (ensureParentExists s parentId instv.namespaceUri now)
              elementId "HasParent")
            elementId parentId "HasParent")
          parentId elementId "HasChildren"

/-- Embedding of `upsert`.  Returns the updated store together with the
notification handed to each registered change listener (listener bodies
are external code; exceptions they throw are swallowed). -/
def upsert (s : ObjectStore) (elementId : Eid) (value : OValue)
    (inst : Option OInstance) (now : String) :
    ObjectStore × List (Eid × OValue × Option OInstance) :=
  (match inst with
   | none => { s with values := s.values.set elementId value }
   | some instv =>
       linkParent
         (installInstance ({ s with values := s.values.set elementId value }) elementId instv)
         elementId instv now,
   s.listeners.map (fun _ => (elementId, value, inst)))

/-- The instance-removal head of `delete`: drop the instance from the
secondary indices and the instance map. -/
def reindexDeleted (s : ObjectStore) (elementId : Eid) : ObjectStore :=
  match s.instances.get elementId with
  | none => s
  | some instv =>
      { s with
        byNamespace := removeFromIndex s.byNamespace instv.namespaceUri elementId,
        byType := removeFromIndex s.byType instv.typeId elementId,
        instances := s.instances.erase elementId }

/-- Embedding of `delete`: drop the instance from the secondary indices,
clear both relationship directions, then remove the value (returning
whether a value existed). -/
def delete (s : ObjectStore) (elementId : Eid) : ObjectStore × Bool :=
  ({ (clearRelationships (reindexDeleted s elementId) elementId) with
      values := ((clearRelationships (reindexDeleted s elementId)
        elementId)).values.erase elementId },
   (((clearRelationships (reindexDeleted s elementId) elementId)).values.get
     elementId).isSome)

/-- Embedding of `clear`: types, namespaces, relationship types and
listeners survive. -/
def clear (s : ObjectStore) : ObjectStore :=
  { s with
    values := []
    instances := []
    byNamespace := []
    byType := []
    relationships := []
    targetIndex := [] }

end ObjectStore

/-- One store-mutating operation of the claims' operation sets: an upsert,
the message handler's HasComponent/ComponentOf pair for one decomposed
child, a delete, or a clear. -/
inductive StoreOp where
  | upsertOp (elementId : Eid) (value : OValue) (inst : Option OInstance) (now : String)
  | componentLink (parentComponentId childId : Eid)
  | deleteOp (elementId : Eid)
  | clearOp

/-- Apply one operation. -/
def applyStoreOp (s : ObjectStore) : StoreOp → ObjectStore
  | .upsertOp e v i now => (s.upsert e v i now).1
  | .componentLink p c =>
      (s.addRelationship p c "HasComponent").addRelationship c p "ComponentOf"
  | .deleteOp e => (s.delete e).1
  | .clearOp => s.clear

/-- Run a sequence of operations from a freshly constructed store. -/
def runStore (ops : List StoreOp) : ObjectStore :=
  ops.foldl applyStoreOp ObjectStore.initial

/-- Number of stored forward edges matching a (source, target, typeId)
triple. -/
def countEdges (s : ObjectStore) (sourceId targetId : Eid) (typeId : String) : Nat :=
  ((ObjectStore.relsOf s sourceId).filter
    (fun r => decide (r.targetElementId = targetId ∧ r.relationshipTypeId = typeId))).length

/-- Parent-chain property of an instance map: every stored instance with
more than one dot-segment has an instance stored for each proper prefix of
its elementId whose joined string is non-empty.  The single-empty-segment
prefix (the parent of an id with a leading dot) joins to the empty string;
it is falsy in the source's `if (parentId)`/`if (grandparentId)` guards and
never receives a placeholder. -/
def ParentChainOf (m : Mp Eid OInstance) : Prop :=
  ∀ id inst, m.get id = some inst → ∀ k, 1 ≤ k → k < id.length →
    id.take k ≠ [""] → ((m.get (id.take k)).isSome)

/-- Discriminator for the delete operation. -/
def StoreOp.isDelete : StoreOp → Bool
  | .deleteOp _ => true
  | _ => false

/-- Presence of a stored directed edge (source, target, typeId). -/
def EdgeIn (s : ObjectStore) (a b : Eid) (ty : String) : Prop :=
  ∃ r ∈ ObjectStore.relsOf s a, r.targetElementId = b ∧ r.relationshipTypeId = ty

/-- Spec invariant I3: the reverse index exactly reflects the forward
relationships table. -/
def TIInv (s : ObjectStore) : Prop :=
  ∀ a t, a ∈ ObjectStore.tidxOf s t ↔ ∃ r ∈ ObjectStore.relsOf s a, r.targetElementId = t

/-- Organizational edges always link an element to its dot-parent: a
HasParent edge points from a multi-segment id to its prefix, a HasChildren
edge the other way. -/
def ShapeInv (s : ObjectStore) : Prop :=
  ∀ a r, r ∈ ObjectStore.relsOf s a →
    (r.relationshipTypeId = "HasParent" →
      2 ≤ a.length ∧ r.targetElementId = a.dropLast) ∧
    (r.relationshipTypeId = "HasChildren" →
      2 ≤ r.targetElementId.length ∧ a = r.targetElementId.dropLast)

/-- Spec invariant I1: every (source, target, HasParent) edge has a
matching (target, source, HasChildren) edge and vice-versa. -/
def PairInv (s : ObjectStore) : Prop :=
  ∀ a b, EdgeIn s a b "HasParent" ↔ EdgeIn s b a "HasChildren"

/-- The three relationship invariants carried through the induction. -/
def RelInv (s : ObjectStore) : Prop := TIInv s ∧ ShapeInv s ∧ PairInv s

/-! ## Topic templates (src/mapping/template.ts)

`compileTopicPattern` scans the pattern with the global regex that finds a
left brace, one or more non-right-brace characters, then a right brace; each
match becomes a named capture group matching one or more non-slash
characters, and the text between matches becomes an escaped literal.  The
compiled template is therefore an alternating list of literal runs and
parameters, embedded here as `List TPart`.  Strings are embedded as
`List Char`, matching the character-wise regex scan. -/

/-- One piece of a compiled topic pattern: a literal run or a named
parameter (`compileTopicPattern` pushes the escaped literal slices and a
non-slash capture group in source order). -/
inductive TPart where
  | lit (s : List Char)
  | param (name : List Char)
deriving DecidableEq

/-- Flush the pending literal accumulator (held in reverse) in front of
already-parsed parts; an empty run produces no part, exactly as
`compileTopicPattern` only pushes non-empty slices. -/
def emitLit (acc : List Char) (rest : List TPart) : List TPart :=
  if acc = [] then rest else TPart.lit acc.reverse :: rest

/-- The left-to-right scan of the parameter regex, as a character machine:
in normal mode (`none`) a left brace opens a parameter, anything else joins
the pending literal; in brace mode (`some buf`) characters join the name
until the first right brace.  An empty name (left brace directly followed
by a right brace) or an unterminated left brace is not a regex match, so
those characters stay literal and the scan resumes exactly where the regex
engine would: after the brace pair, or at the end. -/
def parseScanGo : Option (List Char) → List Char → List Char → List TPart
  | none, acc, [] => emitLit acc []
  | none, acc, c :: t =>
      if c = '{' then parseScanGo (some []) acc t
      else parseScanGo none (c :: acc) t
  | some buf, acc, [] => emitLit (buf ++ '{' :: acc) []
  | some buf, acc, c :: t =>
      if c = '}' then
        if buf = [] then parseScanGo none ('}' :: '{' :: acc) t
        else emitLit acc (TPart.param buf.reverse :: parseScanGo none [] t)
      else parseScanGo (some (c :: buf)) acc t

/-- The part list of `compileTopicPattern(pattern)` (its regex source and
the parameter list are both determined by it). -/
def parsePattern (l : List Char) : List TPart := parseScanGo none [] l

/-- `compileTopicPattern`'s `paramNames`: the parameter names in source
order. -/
def paramNames (parts : List TPart) : List (List Char) :=
  parts.filterMap (fun p => match p with | .param n => some n | .lit _ => none)

/-- Backtracking matcher for the compiled anchored regex: a literal run
must match exactly, a parameter group greedily tries the longest non-empty
slash-free prefix first and backtracks (shorter first on failure), the
whole input must be consumed.  Returns the captured group values in
order. -/
def matchParts : List TPart → List Char → Option (List (List Char))
  | [], input => if input = [] then some [] else none
  | .lit s :: ps, input =>
      if input.take s.length = s then matchParts ps (input.drop s.length) else none
  | .param _ :: ps, input =>
      (List.range (input.takeWhile (fun c => decide (c ≠ '/'))).length).reverse.findSome?
        (fun k =>
          match matchParts ps (input.drop (k + 1)) with
          | some caps => some (input.take (k + 1) :: caps)
          | none => none)

/-- The capture object built by `matchTopic`: ascending assignment
`capture[paramNames[i]] = match[i + 1]`, a later duplicate name
overwriting an earlier one. -/
def capturesOf (names vals : List (List Char)) : Mp (List Char) (List Char) :=
  (names.zip vals).foldl (fun m p => m.set p.1 p.2) []

/-- Embedding of `matchTopic(topic, compileTopicPattern(P))`: `null` when
the anchored regex does not match, otherwise the name-keyed captures. -/
def matchTopic (topic P : List Char) : Option (Mp (List Char) (List Char)) :=
  match matchParts (parsePattern P) topic with
  | none => none
  | some vals => some (capturesOf (paramNames (parsePattern P)) vals)

/-- Replacement pass of `renderTemplate`: the same parameter scan, each
match replaced by `captures[key]` with a missing key rendered as the empty
string. -/
def renderParts : List TPart → Mp (List Char) (List Char) → List Char
  | [], _ => []
  | .lit s :: ps, caps => s ++ renderParts ps caps
  | .param n :: ps, caps => ((caps.get n).getD []) ++ renderParts ps caps

/-- Embedding of `renderTemplate(template, captures)`. -/
def renderTemplate (template : List Char) (caps : Mp (List Char) (List Char)) :
    List Char :=
  renderParts (parsePattern template) caps

/-- The topic obtained from a pattern by substituting `σ` for its
parameters (the claim's notion of a substitution instance). -/
def substParts : List TPart → (List Char → List Char) → List Char
  | [], _ => []
  | .lit s :: ps, σ => s ++ substParts ps σ
  | .param n :: ps, σ => σ n ++ substParts ps σ

/-- The input decomposition a successful match witnesses: literal runs and
captured values, concatenated in order. -/
def interleaveParts : List TPart → List (List Char) → List Char
  | [], _ => []
  | .lit s :: ps, vs => s ++ interleaveParts ps vs
  | .param _ :: ps, [] => interleaveParts ps []
  | .param _ :: ps, v :: vs => v ++ interleaveParts ps vs

/-- Substitution used by the C6 witness: slash-free non-empty values. -/
def sigC6 : List Char → List Char := fun n => if n = ['a'] then ['x'] else ['y', 'z']

/-- Substitution used against the literal reading of R2: the value of `a`
is itself a template that names `b`. -/
def sigC6cx : List Char → List Char :=
  fun n => if n = ['a'] then "\x7bb\x7d".data else ['z']

namespace Mp

variable {α β : Type} [DecidableEq α]

@[simp] theorem get_nil (k : α) : get k ([] : Mp α β) = none := rfl

theorem get_set_self (k : α) (v : β) (m : Mp α β) : get k (set k v m) = some v := by
  induction m with
  | nil => simp [get, set]
  | cons h t ih =>
    obtain ⟨a, b⟩ := h
    by_cases hak : a = k <;> simp [get, set, hak, ih]

theorem get_set_ne (k k' : α) (v : β) (m : Mp α β) (h : k' ≠ k) :
    get k' (set k v m) = get k' m := by
  have hk : k ≠ k' := Ne.symm h
  induction m with
  | nil => simp [get, set, hk]
  | cons hd t ih =>
    obtain ⟨a, b⟩ := hd
    by_cases hak : a = k
    · subst hak
      simp [get, set, hk]
    · by_cases hak' : a = k' <;> simp [get, set, hak, hak', h, ih]

theorem get_erase_self (k : α) (m : Mp α β) : get k (erase k m) = none := by
  induction m with
  | nil => rfl
  | cons hd t ih =>
    obtain ⟨a, b⟩ := hd
    by_cases hak : a = k <;> simp [get, erase, hak, ih]

theorem get_erase_ne (k k' : α) (m : Mp α β) (h : k' ≠ k) :
    get k' (erase k m) = get k' m := by
  induction m with
  | nil => rfl
  | cons hd t ih =>
    obtain ⟨a, b⟩ := hd
    by_cases hak : a = k
    · subst hak
      simp [get, erase, Ne.symm h, ih]
    · by_cases hak' : a = k' <;> simp [get, erase, hak, hak', h, ih]

theorem get_mapValues (f : β → β) (k : α) (m : Mp α β) :
    get k (mapValues f m) = (get k m).map f := by
  induction m with
  | nil => rfl
  | cons hd t ih =>
    obtain ⟨a, b⟩ := hd
    by_cases hak : a = k
    · simp [get, mapValues, hak]
    · simpa [get, mapValues, hak] using ih

end Mp

namespace SubMgr

variable {V : Type}

theorem register_eq_none {s : SubMgr V} {sid : String} {ids : List String}
    (h : s.subscriptions.get sid = none) : s.register sid ids = s := by
  unfold register
  rw [h]

theorem register_subscriptions_some {s : SubMgr V} {sid : String} {ids : List String}
    {sub : Subscription V} (h : s.subscriptions.get sid = some sub) :
    (s.register sid ids).subscriptions = s.subscriptions.set sid
      ({ sub with monitoredItems := ids.foldl (fun acc i => addElem i acc) sub.monitoredItems }) := by
  unfold register
  rw [h]

theorem unregister_eq_none {s : SubMgr V} {sid : String} {ids : List String}
    (h : s.subscriptions.get sid = none) : s.unregister sid ids = s := by
  unfold unregister
  rw [h]

theorem unregister_subscriptions_some {s : SubMgr V} {sid : String} {ids : List String}
    {sub : Subscription V} (h : s.subscriptions.get sid = some sub) :
    (s.unregister sid ids).subscriptions = s.subscriptions.set sid
      ({ sub with monitoredItems := ids.foldl (fun acc i => removeElem i acc) sub.monitoredItems }) := by
  unfold unregister
  rw [h]

theorem sync_eq_none {s : SubMgr V} {sid : String}
    (h : s.subscriptions.get sid = none) : s.sync sid = (none, s) := by
  unfold sync
  rw [h]

theorem sync_fst_some {s : SubMgr V} {sid : String} {sub : Subscription V}
    (h : s.subscriptions.get sid = some sub) :
    (s.sync sid).1 = some sub.pendingQueue := by
  unfold sync
  rw [h]

theorem sync_snd_subscriptions_some {s : SubMgr V} {sid : String} {sub : Subscription V}
    (h : s.subscriptions.get sid = some sub) :
    ((s.sync sid).2).subscriptions =
      s.subscriptions.set sid ({ sub with pendingQueue := [] }) := by
  unfold sync
  rw [h]

theorem sync_snd_sse_some {s : SubMgr V} {sid : String} {sub : Subscription V}
    (h : s.subscriptions.get sid = some sub) :
    ((s.sync sid).2).sseConnections = s.sseConnections := by
  unfold sync
  rw [h]

theorem pushBounded_length (q : List V) (hwm : Nat) (v : V)
    (h : q.length ≤ max hwm 1) : (pushBounded q hwm v).length ≤ max hwm 1 := by
  unfold pushBounded
  by_cases hge : q.length ≥ hwm
  · rw [if_pos hge]
    cases q with
    | nil => simp
    | cons a t => simpa using h
  · rw [if_neg hge]
    have hlt : q.length + 1 ≤ hwm := Nat.lt_of_not_le hge
    simp only [List.length_append, List.length_cons, List.length_nil, Nat.zero_add]
    exact le_trans hlt (le_max_left _ _)

theorem qinv_applyOp (s : SubMgr V) (op : Op V) (h : QInv s) :
    QInv (applyOp s op) := by
  cases op with
  | create uuid now mi md hwm =>
    intro id sub hget
    simp only [applyOp, create] at hget
    by_cases hid : id = uuid
    · subst hid
      rw [Mp.get_set_self] at hget
      obtain rfl := Option.some.inj hget
      simp
    · rw [Mp.get_set_ne _ _ _ _ hid] at hget
      exact h id sub hget
  | register sid ids =>
    intro id sub hget
    simp only [applyOp] at hget
    cases hval : s.subscriptions.get sid with
    | none =>
      rw [register_eq_none hval] at hget
      exact h id sub hget
    | some sub0 =>
      rw [register_subscriptions_some hval] at hget
      by_cases hid : id = sid
      · subst hid
        rw [Mp.get_set_self] at hget
        obtain rfl := Option.some.inj hget
        exact h id sub0 hval
      · rw [Mp.get_set_ne _ _ _ _ hid] at hget
        exact h id sub hget
  | unregister sid ids =>
    intro id sub hget
    simp only [applyOp] at hget
    cases hval : s.subscriptions.get sid with
    | none =>
      rw [unregister_eq_none hval] at hget
      exact h id sub hget
    | some sub0 =>
      rw [unregister_subscriptions_some hval] at hget
      by_cases hid : id = sid
      · subst hid
        rw [Mp.get_set_self] at hget
        obtain rfl := Option.some.inj hget
        exact h id sub0 hval
      · rw [Mp.get_set_ne _ _ _ _ hid] at hget
        exact h id sub hget
  | notifyChange e v =>
    intro id sub hget
    simp only [applyOp, notifyChange] at hget
    rw [Mp.get_mapValues] at hget
    cases hval : s.subscriptions.get id with
    | none =>
      rw [hval] at hget
      cases hget
    | some sub0 =>
      rw [hval] at hget
      simp only [Option.map_some'] at hget
      by_cases hmon : e ∈ sub0.monitoredItems
      · rw [if_pos hmon] at hget
        obtain rfl := Option.some.inj hget
        exact pushBounded_length _ _ _ (h id sub0 hval)
      · rw [if_neg hmon] at hget
        obtain rfl := Option.some.inj hget
        exact h id sub0 hval
  | sync sid =>
    intro id sub hget
    simp only [applyOp] at hget
    cases hval : s.subscriptions.get sid with
    | none =>
      rw [sync_eq_none hval] at hget
      exact h id sub hget
    | some sub0 =>
      rw [sync_snd_subscriptions_some hval] at hget
      by_cases hid : id = sid
      · subst hid
        rw [Mp.get_set_self] at hget
        obtain rfl := Option.some.inj hget
        simp
      · rw [Mp.get_set_ne _ _ _ _ hid] at hget
        exact h id sub hget
  | delete sid =>
    intro id sub hget
    simp only [applyOp, delete] at hget
    by_cases hid : id = sid
    · subst hid
      rw [Mp.get_erase_self] at hget
      cases hget
    · rw [Mp.get_erase_ne _ _ _ hid] at hget
      exact h id sub hget

theorem qinv_foldl (ops : List (Op V)) :
    ∀ s : SubMgr V, QInv s → QInv (ops.foldl applyOp s) := by
  induction ops with
  | nil => intro s hs; exact hs
  | cons op rest ih =>
    intro s hs
    exact ih (applyOp s op) (qinv_applyOp s op hs)

theorem qinv_run (ops : List (Op V)) : QInv (run ops) := by
  have hbase : QInv (initial : SubMgr V) := by
    intro id sub hget
    cases hget
  exact qinv_foldl ops initial hbase

end SubMgr

/-- C1 (amended). For every sequence of SubscriptionManager operations
(create, register, unregister, notifyChange, sync, delete), every
subscription's pending queue length is bounded by
`max queueHighWaterMark 1`; in particular the bound `queueHighWaterMark`
claimed by invariant I5 holds whenever `queueHighWaterMark ≥ 1`.  Moreover,
when the queue is at the high-water mark, `notifyChange` evicts the oldest
element before appending the new value.  For `queueHighWaterMark = 0` the
claimed bound fails: a `notifyChange` leaves one element in the queue
(see the counterexample). -/
theorem c1_queue_bound :
    (∀ (V : Type) (ops : List (SubMgr.Op V)) (id : String) (sub : Subscription V),
        Mp.get id (SubMgr.run ops).subscriptions = some sub →
        sub.pendingQueue.length ≤ max sub.queueHighWaterMark 1) ∧
    (∀ (V : Type) (s : SubMgr V) (id e : String) (sub : Subscription V) (v : V),
        Mp.get id s.subscriptions = some sub →
        e ∈ sub.monitoredItems →
        sub.pendingQueue.length = sub.queueHighWaterMark →
        Mp.get id (s.notifyChange e v).subscriptions =
          some { sub with pendingQueue := sub.pendingQueue.tail ++ [v] }) := by
  constructor
  · intro V ops id sub hget
    exact SubMgr.qinv_run ops id sub hget
  · intro V s id e sub v hget hmon hlen
    have hpb : SubMgr.pushBounded sub.pendingQueue sub.queueHighWaterMark v
        = sub.pendingQueue.tail ++ [v] := by
      unfold SubMgr.pushBounded
      rw [if_pos (le_of_eq hlen.symm)]
    simp only [SubMgr.notifyChange]
    rw [Mp.get_mapValues, hget]
    simp only [Option.map_some']
    rw [if_pos hmon, hpb]

/-- C1 witness: a run with high-water mark 2 whose queue stays within the
bound, and a concrete eviction at the mark. -/
theorem c1_queue_bound_witness :
    Mp.get "u" (SubMgr.run [SubMgr.Op.create "u" "t0" (some ["x"]) none (some 2),
        SubMgr.Op.notifyChange "x" (() : Unit)]).subscriptions
      = some ⟨"u", "t0", ["x"], 0, [()], 2⟩ ∧
    ([()] : List Unit).length ≤ max 2 1 ∧
    (("x" : String) ∈ (["x"] : List String) ∧
     ([()] : List Unit).length = 1 ∧
     Mp.get "u" ((⟨[("u", ⟨"u", "t0", ["x"], 0, [()], 1⟩)], []⟩ :
        SubMgr Unit).notifyChange "x" ()).subscriptions
      = some ⟨"u", "t0", ["x"], 0, [()], 1⟩) :=
  ⟨by decide,
   c1_queue_bound.1 Unit [SubMgr.Op.create "u" "t0" (some ["x"]) none (some 2),
      SubMgr.Op.notifyChange "x" ()] "u" ⟨"u", "t0", ["x"], 0, [()], 2⟩ (by decide),
   by decide, by decide,
   c1_queue_bound.2 Unit ⟨[("u", ⟨"u", "t0", ["x"], 0, [()], 1⟩)], []⟩ "u" "x"
      ⟨"u", "t0", ["x"], 0, [()], 1⟩ () (by decide) (by decide) (by decide)⟩

/-- C1 counterexample: queueHighWaterMark 0 is admissible at create
(the `?? 10000` default keeps an explicit 0), yet after a single
notifyChange the pending queue holds one element, so the claimed invariant
`|pendingQueue| ≤ queueHighWaterMark` fails on a reachable state. -/
theorem c1_queue_bound_counterexample :
    ¬ (∀ (id : String) (sub : Subscription Unit),
        Mp.get id (SubMgr.run [SubMgr.Op.create "u" "t0" (some ["x"]) none (some 0),
            SubMgr.Op.notifyChange "x" ()]).subscriptions = some sub →
        sub.pendingQueue.length ≤ sub.queueHighWaterMark) := by
  intro hclaim
  have h1 := hclaim "u" ⟨"u", "t0", ["x"], 0, [()], 0⟩ (by decide)
  exact absurd h1 (by decide)

/-- C4: `sync(subscriptionId)` on an existing subscription returns exactly
the full pending queue in FIFO order (the queue list itself, which is kept
in arrival order: `push` appends, the overflow `shift` removes the front),
leaves that queue empty, and changes no other subscription and no SSE
binding; on an absent subscriptionId it returns undefined and the state is
unchanged. -/
theorem c4_sync_drains :
    ∀ (V : Type) (s : SubMgr V) (id : String),
      (s.subscriptions.get id = none → s.sync id = (none, s)) ∧
      (∀ sub : Subscription V, s.subscriptions.get id = some sub →
        (s.sync id).1 = some sub.pendingQueue ∧
        ((s.sync id).2).subscriptions.get id = some { sub with pendingQueue := ([] : List V) } ∧
        (∀ id' : String, id' ≠ id → ((s.sync id).2).subscriptions.get id' = s.subscriptions.get id') ∧
        ((s.sync id).2).sseConnections = s.sseConnections) := by
  intro V s id
  constructor
  · intro hnone
    exact SubMgr.sync_eq_none hnone
  · intro sub hsome
    refine ⟨SubMgr.sync_fst_some hsome, ?_, ?_, SubMgr.sync_snd_sse_some hsome⟩
    · rw [SubMgr.sync_snd_subscriptions_some hsome, Mp.get_set_self]
    · intro id' hne
      rw [SubMgr.sync_snd_subscriptions_some hsome, Mp.get_set_ne _ _ _ _ hne]

/-- C4 witness: a concrete two-subscription manager; draining "a" returns
its queue, empties it, and leaves "b" and the SSE set untouched; syncing
the absent "z" is the identity. -/
theorem c4_sync_drains_witness :
    ((⟨[("a", ⟨"a", "t0", ["x"], 0, [3, 7], 5⟩), ("b", ⟨"b", "t1", [], 0, [9], 5⟩)], []⟩ :
        SubMgr Nat).subscriptions.get "z" = none ∧
     (⟨[("a", ⟨"a", "t0", ["x"], 0, [3, 7], 5⟩), ("b", ⟨"b", "t1", [], 0, [9], 5⟩)], []⟩ :
        SubMgr Nat).sync "z" = (none, ⟨[("a", ⟨"a", "t0", ["x"], 0, [3, 7], 5⟩),
          ("b", ⟨"b", "t1", [], 0, [9], 5⟩)], []⟩)) ∧
    ((⟨[("a", ⟨"a", "t0", ["x"], 0, [3, 7], 5⟩), ("b", ⟨"b", "t1", [], 0, [9], 5⟩)], []⟩ :
        SubMgr Nat).subscriptions.get "a" = some ⟨"a", "t0", ["x"], 0, [3, 7], 5⟩ ∧
     ((⟨[("a", ⟨"a", "t0", ["x"], 0, [3, 7], 5⟩), ("b", ⟨"b", "t1", [], 0, [9], 5⟩)], []⟩ :
        SubMgr Nat).sync "a").1 = some [3, 7] ∧
     (((⟨[("a", ⟨"a", "t0", ["x"], 0, [3, 7], 5⟩), ("b", ⟨"b", "t1", [], 0, [9], 5⟩)], []⟩ :
        SubMgr Nat).sync "a").2).subscriptions.get "a" = some ⟨"a", "t0", ["x"], 0, [], 5⟩ ∧
     (((⟨[("a", ⟨"a", "t0", ["x"], 0, [3, 7], 5⟩), ("b", ⟨"b", "t1", [], 0, [9], 5⟩)], []⟩ :
        SubMgr Nat).sync "a").2).subscriptions.get "b" = some ⟨"b", "t1", [], 0, [9], 5⟩) := by
  have hmain := c4_sync_drains Nat
    ⟨[("a", ⟨"a", "t0", ["x"], 0, [3, 7], 5⟩), ("b", ⟨"b", "t1", [], 0, [9], 5⟩)], []⟩ "a"
  have hz := (c4_sync_drains Nat
    ⟨[("a", ⟨"a", "t0", ["x"], 0, [3, 7], 5⟩), ("b", ⟨"b", "t1", [], 0, [9], 5⟩)], []⟩ "z").1
      (by decide)
  have ha := hmain.2 ⟨"a", "t0", ["x"], 0, [3, 7], 5⟩ (by decide)
  refine ⟨⟨by decide, hz⟩, by decide, ha.1, ha.2.1, ?_⟩
  have := ha.2.2.1 "b" (by decide)
  rw [this]
  decide

/-- C7: the registry's decode converts any exception thrown inside a
registered codec into undefined, and each fixed-width numeric builtin
(uint8, int8, uint16, int16, uint32, int32, float32, float64) decodes an
input shorter than its width to undefined rather than a partial value. -/
theorem c7_decode_fault_tolerant :
    (∀ (reg : Mp String Codec) (name : String) (c : Codec) (input : List Nat)
        (options : Option (Mp String String)) (msg : String),
        Mp.get name reg = some c →
        c.decode input options = .error msg →
        CodecRegistry.decode reg name input options = none) ∧
    (∀ (input : List Nat) (options : Option (Mp String String)),
      (input.length < 1 → uint8.decode input options = .ok none) ∧
      (input.length < 1 → int8.decode input options = .ok none) ∧
      (input.length < 2 → uint16.decode input options = .ok none) ∧
      (input.length < 2 → int16.decode input options = .ok none) ∧
      (input.length < 4 → uint32.decode input options = .ok none) ∧
      (input.length < 4 → int32.decode input options = .ok none) ∧
      (input.length < 4 → float32.decode input options = .ok none) ∧
      (input.length < 8 → float64.decode input options = .ok none)) := by
  constructor
  · intro reg name c input options msg hreg herr
    simp only [CodecRegistry.decode, hreg, herr]
  · intro input options
    refine ⟨?_, ?_, ?_, ?_, ?_, ?_, ?_, ?_⟩ <;> intro hlen
    · simp [uint8, Nat.not_le.mpr hlen]
    · simp [int8, Nat.not_le.mpr hlen]
    · simp [uint16, hlen]
    · simp [int16, hlen]
    · simp [uint32, hlen]
    · simp [int32, hlen]
    · simp [float32, hlen]
    · simp [float64, hlen]

/-- C7 witness: a registry holding a throwing codec decodes to undefined,
and each numeric builtin returns undefined on a one-byte-short input. -/
theorem c7_decode_fault_tolerant_witness :
    (Mp.get "bad" [("bad", throwingCodec)] = some throwingCodec ∧
     throwingCodec.decode [1, 2] none = .error "boom" ∧
     CodecRegistry.decode [("bad", throwingCodec)] "bad" [1, 2] none = none) ∧
    (uint8.decode [] none = .ok none ∧
     int8.decode [] none = .ok none ∧
     uint16.decode [0] none = .ok none ∧
     int16.decode [0] none = .ok none ∧
     uint32.decode [0, 1, 2] none = .ok none ∧
     int32.decode [0, 1, 2] none = .ok none ∧
     float32.decode [0, 1, 2] none = .ok none ∧
     float64.decode [0, 1, 2, 3, 4, 5, 6] none = .ok none) := by
  have hshort := c7_decode_fault_tolerant.2
  refine ⟨⟨by rfl, by rfl,
      c7_decode_fault_tolerant.1 [("bad", throwingCodec)] "bad" throwingCodec [1, 2]
        none "boom" (by rfl) (by rfl)⟩,
    (hshort [] none).1 (by decide),
    (hshort [] none).2.1 (by decide),
    (hshort [0] none).2.2.1 (by decide),
    (hshort [0] none).2.2.2.1 (by decide),
    (hshort [0, 1, 2] none).2.2.2.2.1 (by decide),
    (hshort [0, 1, 2] none).2.2.2.2.2.1 (by decide),
    (hshort [0, 1, 2] none).2.2.2.2.2.2.1 (by decide),
    (hshort [0, 1, 2, 3, 4, 5, 6] none).2.2.2.2.2.2.2 (by decide)⟩

theorem setBit_length (l : List Nat) (b : Nat) : (setBit l b).length = l.length := by
  simp [setBit]

theorem getD_set_self (l : List Nat) (i : Nat) (x : Nat) (h : i < l.length) :
    (l.set i x).getD i 0 = x := by
  induction l generalizing i with
  | nil => cases h
  | cons a t ih =>
    cases i with
    | zero => rfl
    | succ j =>
      simp only [List.set, List.getD, List.get?]
      exact ih j (Nat.lt_of_succ_lt_succ h)

theorem getD_set_ne (l : List Nat) (i j : Nat) (x : Nat) (h : i ≠ j) :
    (l.set i x).getD j 0 = l.getD j 0 := by
  induction l generalizing i j with
  | nil => rfl
  | cons a t ih =>
    cases i with
    | zero =>
      cases j with
      | zero => exact absurd rfl h
      | succ j' => rfl
    | succ i' =>
      cases j with
      | zero => rfl
      | succ j' =>
        simp only [List.set, List.getD, List.get?]
        exact ih i' j' (fun hh => h (by rw [hh]))

theorem bitAt_replicate_zero (n k : Nat) : bitAt (List.replicate n 0) k = false := by
  unfold bitAt
  have h0 : (List.replicate n (0 : Nat)).getD (k / 8) 0 = 0 := by
    by_cases h : k / 8 < n
    · rw [List.getD_eq_getElem _ _ (by simpa using h)]
      simp
    · rw [List.getD_eq_default _ _ (by simpa using Nat.le_of_not_lt h)]
  rw [h0]
  simp

theorem bitAt_setBit (l : List Nat) (b k : Nat) (hb : b < 8 * l.length) :
    bitAt (setBit l b) k = (bitAt l k || decide (k = b)) := by
  unfold bitAt setBit
  by_cases hbyte : k / 8 = b / 8
  · rw [hbyte, getD_set_self _ _ _ (by omega), Nat.testBit_lor,
      Nat.shiftLeft_eq, Nat.one_mul, Nat.testBit_two_pow, ← hbyte]
    have hiff : (7 - b % 8 = 7 - k % 8) ↔ (k = b) := by omega
    rw [decide_eq_decide.mpr hiff]
  · rw [getD_set_ne _ _ _ _ (fun hh => hbyte hh.symm)]
    have hne : k ≠ b := fun hh => hbyte (by rw [hh])
    simp [hne]

theorem copyBits_length (payload : List Nat) (off pad : Nat) (n : Nat) (acc : List Nat) :
    (copyBits payload off pad n acc).length = acc.length := by
  unfold copyBits
  induction n generalizing acc with
  | zero => rfl
  | succ m ih =>
    rw [List.range_succ, List.foldl_append]
    simp only [List.foldl_cons, List.foldl_nil]
    by_cases hbit : bitAt payload (off + m)
    · rw [if_pos hbit, setBit_length, ih]
    · rw [if_neg hbit, ih]

theorem bitAt_copyBits (payload : List Nat) (off pad : Nat) (n : Nat) (acc : List Nat)
    (hfit : pad + n ≤ 8 * acc.length) (k : Nat) :
    bitAt (copyBits payload off pad n acc) k
      = (bitAt acc k ||
          (decide (pad ≤ k) && decide (k < pad + n) && bitAt payload (off + (k - pad)))) := by
  unfold copyBits
  induction n with
  | zero => simp
  | succ m ih =>
    rw [List.range_succ, List.foldl_append]
    simp only [List.foldl_cons, List.foldl_nil]
    have hfit' : pad + m ≤ 8 * acc.length := by omega
    have hflen : ((List.range m).foldl
        (fun a i => if bitAt payload (off + i) then setBit a (pad + i) else a) acc).length
        = acc.length := copyBits_length payload off pad m acc
    have ihm := ih hfit'
    by_cases hbit : bitAt payload (off + m)
    · rw [if_pos hbit, bitAt_setBit _ _ _ (by omega), ihm]
      by_cases hkm : k = pad + m
      · have h1 : pad ≤ k := by omega
        have h2 : k < pad + (m + 1) := by omega
        have h3 : ¬ (k < pad + m) := by omega
        have h4 : k - pad = m := by omega
        simp [hkm, h1, h2, h3, h4, hbit]
      · by_cases hin : pad ≤ k ∧ k < pad + m
        · have h2 : k < pad + (m + 1) := by omega
          simp [hkm, hin.1, hin.2, h2]
        · have hsplit : ¬ (pad ≤ k) ∨ ¬ (k < pad + m) := by tauto
          have h3 : (decide (pad ≤ k) && decide (k < pad + m)) = false := by
            rcases hsplit with h | h <;> simp [h]
          have h4 : (decide (pad ≤ k) && decide (k < pad + (m + 1))) = false := by
            rcases hsplit with h | h
            · simp [h]
            · have : ¬ (k < pad + (m + 1)) := by omega
              simp [this]
          rw [h3, h4]
          simp [hkm]
    · rw [if_neg hbit, ihm]
      by_cases hkm : k = pad + m
      · have h3 : ¬ (k < pad + m) := by omega
        have h4 : k - pad = m := by omega
        have hb' : bitAt payload (off + (k - pad)) = false := by
          rw [h4]
          exact Bool.eq_false_iff.mpr hbit
        simp [h3, hb']
      · have hiff : (k < pad + m) ↔ (k < pad + (m + 1)) := by omega
        rw [show decide (k < pad + m) = decide (k < pad + (m + 1)) from
          decide_eq_decide.mpr hiff]

/-- C5: with bitOffset and bitLength both set, extract dispatches to the
bit extractor, which returns the contiguous bit run right-aligned in a
newly allocated buffer of ceil(bitLength/8) bytes with zero high bits
(stated bit-exactly for every in-range request); bits beyond the payload
are silently truncated to the available range (the result equals extracting
exactly the available run); and a bitOffset at or past the payload end
yields an empty buffer. -/
theorem c5_extract_bit_run :
    (∀ (payload : List Nat) (bo bl : Int) (b1 b2 : Option Int) (e : Option String),
        extract payload (some ⟨some bo, some bl, b1, b2, e⟩) = extractBits payload bo bl) ∧
    (∀ (payload : List Nat) (bo bl : Int),
        8 * (payload.length : Int) ≤ bo → extractBits payload bo bl = []) ∧
    (∀ (payload : List Nat) (bo bl : Int),
        0 ≤ bo → 0 < bl → bo + bl ≤ 8 * (payload.length : Int) →
        (extractBits payload bo bl).length = (bl.toNat + 7) / 8 ∧
        (∀ k : Nat, k < 8 * ((bl.toNat + 7) / 8) →
          bitAt (extractBits payload bo bl) k =
            (decide ((bl.toNat + 7) / 8 * 8 - bl.toNat ≤ k) &&
             bitAt payload (bo.toNat + (k - ((bl.toNat + 7) / 8 * 8 - bl.toNat)))))) ∧
    (∀ (payload : List Nat) (bo bl : Int),
        0 ≤ bo → 0 < bl → bo < 8 * (payload.length : Int) →
        extractBits payload bo bl =
          extractBits payload bo (min bl (8 * (payload.length : Int) - bo))) := by
  refine ⟨?_, ?_, ?_, ?_⟩
  · intro payload bo bl b1 b2 e
    rfl
  · intro payload bo bl hbo
    unfold extractBits
    by_cases h1 : bl ≤ 0 ∨ bo < 0
    · rw [if_pos h1]
    · rw [if_neg h1, if_pos hbo]
  · intro payload bo bl hbo hbl hrange
    have h1 : ¬ (bl ≤ 0 ∨ bo < 0) := by omega
    have h2 : ¬ (8 * (payload.length : Int) ≤ bo) := by omega
    have heff : effBits payload bo bl = bl.toNat := by
      unfold effBits
      rw [min_eq_left (by omega : bl ≤ 8 * (payload.length : Int) - bo)]
    have hres : resultBytesOf payload bo bl = (bl.toNat + 7) / 8 := by
      unfold resultBytesOf
      rw [heff]
    unfold extractBits
    rw [if_neg h1, if_neg h2, heff, hres]
    constructor
    · rw [copyBits_length]
      simp
    · intro k hk
      have hfit : ((bl.toNat + 7) / 8 * 8 - bl.toNat) + bl.toNat
          ≤ 8 * (List.replicate ((bl.toNat + 7) / 8) (0 : Nat)).length := by
        simp only [List.length_replicate]
        omega
      rw [bitAt_copyBits _ _ _ _ _ hfit k, bitAt_replicate_zero]
      have hlt : k < ((bl.toNat + 7) / 8 * 8 - bl.toNat) + bl.toNat := by omega
      rw [decide_eq_true hlt]
      simp
  · intro payload bo bl hbo hbl hlt
    have heff : effBits payload bo (min bl (8 * (payload.length : Int) - bo))
        = effBits payload bo bl := by
      unfold effBits
      rw [min_assoc, min_self]
    have h1 : ¬ (bl ≤ 0 ∨ bo < 0) := by omega
    have hminpos : (0 : Int) < min bl (8 * (payload.length : Int) - bo) :=
      lt_min hbl (by omega)
    have h1' : ¬ (min bl (8 * (payload.length : Int) - bo) ≤ 0 ∨ bo < 0) := by
      intro hcon
      rcases hcon with h | h
      · exact absurd h (not_le.mpr hminpos)
      · omega
    have h2 : ¬ (8 * (payload.length : Int) ≤ bo) := by omega
    unfold extractBits resultBytesOf
    rw [if_neg h1, if_neg h1', if_neg h2, if_neg h2, heff]

/-- C5 witness: concrete extractions — dispatch on buffer `[165, 240]`,
empty result past the end, exact size and bits for the in-range run of 6
bits at offset 4, and truncation of a 20-bit request. -/
theorem c5_extract_bit_run_witness :
    (extract [165, 240] (some ⟨some 4, some 6, none, none, none⟩)
        = extractBits [165, 240] 4 6) ∧
    (8 * (([5] : List Nat).length : Int) ≤ 8 ∧ extractBits [5] 8 3 = []) ∧
    ((0 : Int) ≤ 4 ∧ (0 : Int) < 6 ∧ (4 : Int) + 6 ≤ 8 * (([165, 240] : List Nat).length : Int) ∧
     (extractBits [165, 240] 4 6).length = ((6 : Int).toNat + 7) / 8 ∧
     bitAt (extractBits [165, 240] 4 6) 0 =
       (decide (((6 : Int).toNat + 7) / 8 * 8 - (6 : Int).toNat ≤ 0) &&
        bitAt [165, 240] ((4 : Int).toNat + (0 - (((6 : Int).toNat + 7) / 8 * 8 - (6 : Int).toNat))))) ∧
    extractBits [165, 240] 4 20 =
      extractBits [165, 240] 4 (min 20 (8 * (([165, 240] : List Nat).length : Int) - 4)) :=
  ⟨c5_extract_bit_run.1 [165, 240] 4 6 none none none,
   ⟨by decide, c5_extract_bit_run.2.1 [5] 8 3 (by decide)⟩,
   ⟨by decide, by decide, by decide,
    (c5_extract_bit_run.2.2.1 [165, 240] 4 6 (by decide) (by decide) (by decide)).1,
    (c5_extract_bit_run.2.2.1 [165, 240] 4 6 (by decide) (by decide) (by decide)).2 0 (by decide)⟩,
   c5_extract_bit_run.2.2.2 [165, 240] 4 20 (by decide) (by decide) (by decide)⟩

/-- C10: under the flat and auto strategies an empty nested mapping is not
a child candidate (`isChild` is false on it), and the walk materializes it
as a leaf child with typeId "ScalarProperty" whose ObjectValue.value is the
empty mapping itself. -/
theorem c10_empty_mapping_scalar_leaf :
    (∀ strategy : Strategy, strategy = .flat ∨ strategy = .auto →
        PayloadDecomposer.isChild [] strategy = false) ∧
    (∀ (parentId ns timestamp : String) (quality : Option String)
        (config : DecomposeConfig) (exclude : List String) (depth maxDepth : Nat)
        (key : String),
        config.strategy = .flat ∨ config.strategy = .auto →
        key ∉ exclude →
        key ∉ ABELARA_META →
        (maxDepth = 0 ∨ depth < maxDepth) →
        PayloadDecomposer.walk [(key, .jobj [])] parentId ns timestamp quality
            config exclude depth maxDepth =
          [{ result :=
               { elementId := parentId ++ "." ++ sanitize key
                 value :=
                   { elementId := parentId ++ "." ++ sanitize key
                     value := .jobj []
                     timestamp := timestamp
                     quality := quality }
                 inst :=
                   { elementId := parentId ++ "." ++ sanitize key
                     displayName := key
                     typeId := "ScalarProperty"
                     isComposition := false
                     namespaceUri := ns } }
             parentComponentId := parentId }]) := by
  constructor
  · intro strategy h
    rcases h with h | h <;> rw [h] <;> rfl
  · intro parentId ns timestamp quality config exclude depth maxDepth key
      hstrat hexc hmeta hdepth
    have hguard : ¬ (maxDepth ≠ 0 ∧ depth ≥ maxDepth) := by omega
    have hchild : PayloadDecomposer.isChild [] config.strategy = false := by
      rcases hstrat with h | h <;> rw [h] <;> rfl
    unfold PayloadDecomposer.walk
    rw [if_neg hguard]
    unfold PayloadDecomposer.walkEntries
    simp [hexc, hmeta, hchild]
    unfold PayloadDecomposer.walkEntries
    rfl

/-- C10 witness: the flat strategy on a payload whose single field holds
the empty mapping yields exactly one ScalarProperty leaf carrying the empty
mapping as its value. -/
theorem c10_empty_mapping_scalar_leaf_witness :
    PayloadDecomposer.isChild [] .flat = false ∧
    PayloadDecomposer.isChild [] .auto = false ∧
    PayloadDecomposer.walk [("k", .jobj [])] "p" "urn:ns" "t0" none
        ⟨true, .flat, none, none, none, none⟩ [] 0 10 =
      [{ result :=
           { elementId := "p" ++ "." ++ sanitize "k"
             value :=
               { elementId := "p" ++ "." ++ sanitize "k"
                 value := .jobj []
                 timestamp := "t0"
                 quality := none }
             inst :=
               { elementId := "p" ++ "." ++ sanitize "k"
                 displayName := "k"
                 typeId := "ScalarProperty"
                 isComposition := false
                 namespaceUri := "urn:ns" } }
         parentComponentId := "p" }] :=
  ⟨c10_empty_mapping_scalar_leaf.1 .flat (Or.inl rfl),
   c10_empty_mapping_scalar_leaf.1 .auto (Or.inr rfl),
   c10_empty_mapping_scalar_leaf.2 "p" "urn:ns" "t0" none
     ⟨true, .flat, none, none, none, none⟩ [] 0 10 "k" (Or.inl rfl)
     (by decide) (by decide) (Or.inr (by decide))⟩

/-- C9: an upsert without an instance argument only replaces the values
entry for that elementId and notifies every change listener with
`(elementId, value, undefined)`; instances, the namespace and type indices,
relationships, the targetIndex, registered types, namespaces and
relationship types are all untouched, and no placeholder parents or
HasParent/HasChildren edges are created. -/
theorem c9_upsert_value_only (s : ObjectStore) (elementId : Eid) (value : OValue)
    (now : String) :
    ObjectStore.upsert s elementId value none now =
      ({ s with values := s.values.set elementId value },
       s.listeners.map (fun _ => (elementId, value, (none : Option OInstance)))) := rfl

theorem addRelationship_eq_of_dup {s : ObjectStore} {src tgt : Eid} {ty : String}
    (h : (ObjectStore.relsOf s src).any
      (fun r => decide (r.targetElementId = tgt ∧ r.relationshipTypeId = ty)) = true) :
    s.addRelationship src tgt ty = s := by
  unfold ObjectStore.addRelationship
  rw [if_pos h]

theorem addRelationship_eq_of_new {s : ObjectStore} {src tgt : Eid} {ty : String}
    (h : ¬ (ObjectStore.relsOf s src).any
      (fun r => decide (r.targetElementId = tgt ∧ r.relationshipTypeId = ty)) = true) :
    s.addRelationship src tgt ty =
      { s with
        relationships := s.relationships.set src
          (ObjectStore.relsOf s src ++ [⟨tgt, ty⟩]),
        targetIndex := s.targetIndex.set tgt (addElem src (ObjectStore.tidxOf s tgt)) } := by
  unfold ObjectStore.addRelationship
  rw [if_neg h]

/-- C8: `addRelationship` is idempotent — repeating the same
(source, target, typeId) triple returns the store of the first call
unchanged (so the targetIndex reverse entry is identical as well), and
starting from a store holding at most one matching edge, the forward table
holds exactly one matching edge afterwards. -/
theorem c8_add_relationship_idempotent :
    (∀ (s : ObjectStore) (src tgt : Eid) (ty : String),
        (s.addRelationship src tgt ty).addRelationship src tgt ty =
          s.addRelationship src tgt ty) ∧
    (∀ (s : ObjectStore) (src tgt : Eid) (ty : String),
        countEdges s src tgt ty ≤ 1 →
        countEdges (s.addRelationship src tgt ty) src tgt ty = 1) := by
  constructor
  · intro s src tgt ty
    by_cases hdup : (ObjectStore.relsOf s src).any
        (fun r => decide (r.targetElementId = tgt ∧ r.relationshipTypeId = ty)) = true
    · rw [addRelationship_eq_of_dup hdup, addRelationship_eq_of_dup hdup]
    · rw [addRelationship_eq_of_new hdup]
      apply addRelationship_eq_of_dup
      have hrels : ObjectStore.relsOf
          { s with
            relationships := s.relationships.set src
              (ObjectStore.relsOf s src ++ [⟨tgt, ty⟩]),
            targetIndex := s.targetIndex.set tgt (addElem src (ObjectStore.tidxOf s tgt)) }
          src = ObjectStore.relsOf s src ++ [⟨tgt, ty⟩] := by
        unfold ObjectStore.relsOf
        rw [Mp.get_set_self]
        rfl
      rw [hrels, List.any_append]
      simp
  · intro s src tgt ty hle
    by_cases hdup : (ObjectStore.relsOf s src).any
        (fun r => decide (r.targetElementId = tgt ∧ r.relationshipTypeId = ty)) = true
    · rw [addRelationship_eq_of_dup hdup]
      have hex : ∃ r ∈ ObjectStore.relsOf s src,
          r.targetElementId = tgt ∧ r.relationshipTypeId = ty := by
        rcases List.any_eq_true.mp hdup with ⟨r, hr, hp⟩
        exact ⟨r, hr, of_decide_eq_true hp⟩
      have hpos : 0 < countEdges s src tgt ty := by
        rcases hex with ⟨r, hr, hp⟩
        unfold countEdges
        rw [List.length_pos]
        intro hnil
        have : r ∈ (ObjectStore.relsOf s src).filter
            (fun r => decide (r.targetElementId = tgt ∧ r.relationshipTypeId = ty)) :=
          List.mem_filter.mpr ⟨hr, decide_eq_true hp⟩
        rw [hnil] at this
        cases this
      omega
    · rw [addRelationship_eq_of_new hdup]
      have hzero : countEdges s src tgt ty = 0 := by
        unfold countEdges
        rw [List.length_eq_zero, List.filter_eq_nil_iff]
        intro r hr
        intro hp
        exact hdup (List.any_eq_true.mpr ⟨r, hr, hp⟩)
      unfold countEdges ObjectStore.relsOf at hzero ⊢
      rw [Mp.get_set_self]
      simp only [Option.getD_some, List.filter_append]
      rw [List.length_append]
      have h1 : (List.filter
          (fun r => decide (r.targetElementId = tgt ∧ r.relationshipTypeId = ty))
          [(⟨tgt, ty⟩ : Relationship)]).length = 1 := by
        simp
      rw [h1]
      omega

/-- C8 witness: the identical HasComponent edge added twice on a small
store yields the same store as a single add, holding exactly one matching
edge. -/
theorem c8_add_relationship_idempotent_witness :
    ((ObjectStore.initial.addRelationship ["a"] ["b"] "HasComponent").addRelationship
        ["a"] ["b"] "HasComponent" =
      ObjectStore.initial.addRelationship ["a"] ["b"] "HasComponent") ∧
    countEdges ObjectStore.initial ["a"] ["b"] "HasComponent" ≤ 1 ∧
    countEdges (ObjectStore.initial.addRelationship ["a"] ["b"] "HasComponent")
      ["a"] ["b"] "HasComponent" = 1 :=
  ⟨c8_add_relationship_idempotent.1 ObjectStore.initial ["a"] ["b"] "HasComponent",
   by decide,
   c8_add_relationship_idempotent.2 ObjectStore.initial ["a"] ["b"] "HasComponent"
     (by decide)⟩

namespace ObjectStore

theorem addRelationship_instances (s : ObjectStore) (a b : Eid) (ty : String) :
    (s.addRelationship a b ty).instances = s.instances := by
  unfold addRelationship
  split <;> rfl

theorem cleanupReverse_instances (e : Eid) (rem : List Relationship)
    (acc : ObjectStore) (rel : Relationship) :
    (cleanupReverse e rem acc rel).instances = acc.instances := by
  unfold cleanupReverse
  split
  · rfl
  · split
    · rfl
    · split <;> rfl

theorem foldl_instances {α : Type} {f : ObjectStore → α → ObjectStore}
    (hf : ∀ acc x, (f acc x).instances = acc.instances) :
    ∀ (l : List α) (acc : ObjectStore), (l.foldl f acc).instances = acc.instances := by
  intro l
  induction l with
  | nil => intro acc; rfl
  | cons x t ih =>
    intro acc
    rw [List.foldl_cons, ih, hf]

theorem removeRelationshipsByType_instances (s : ObjectStore) (e : Eid) (ty : String) :
    (s.removeRelationshipsByType e ty).instances = s.instances := by
  unfold removeRelationshipsByType
  split
  · rfl
  · split
    · rfl
    · rw [foldl_instances (cleanupReverse_instances e _)]
      split <;> rfl

theorem clearOutgoingStep_instances (e : Eid) (acc : ObjectStore) (rel : Relationship) :
    (clearOutgoingStep e acc rel).instances = acc.instances := by
  unfold clearOutgoingStep
  split
  · rfl
  · split <;> rfl

theorem clearIncomingStep_instances (e : Eid) (acc : ObjectStore) (src : Eid) :
    (clearIncomingStep e acc src).instances = acc.instances := by
  unfold clearIncomingStep
  split
  · rfl
  · split <;> rfl

theorem clearOutgoing_instances (s : ObjectStore) (e : Eid) :
    (clearOutgoing s e).instances = s.instances := by
  unfold clearOutgoing
  split
  · rfl
  · exact foldl_instances (clearOutgoingStep_instances e) _ s

theorem clearIncoming_instances (s : ObjectStore) (e : Eid) :
    (clearIncoming s e).instances = s.instances := by
  unfold clearIncoming
  split
  · rfl
  · exact foldl_instances (clearIncomingStep_instances e) _ s

theorem clearRelationships_instances (s : ObjectStore) (e : Eid) :
    (clearRelationships s e).instances = s.instances := by
  unfold clearRelationships
  rw [clearIncoming_instances, clearOutgoing_instances]

theorem reindexExisting_instances (s : ObjectStore) (e : Eid) :
    (reindexExisting s e).instances = s.instances := by
  unfold reindexExisting
  split <;> rfl

theorem installInstance_instances (s : ObjectStore) (e : Eid) (instv : OInstance) :
    (installInstance s e instv).instances = s.instances.set e instv := by
  unfold installInstance
  rw [show ({ (reindexExisting s e) with
      instances := ((reindexExisting s e)).instances.set e instv,
      byNamespace := addToIndex ((reindexExisting s e)).byNamespace instv.namespaceUri e,
      byType := addToIndex ((reindexExisting s e)).byType instv.typeId e } :
      ObjectStore).instances = ((reindexExisting s e)).instances.set e instv from rfl,
    reindexExisting_instances]

theorem placeStore_instances_get_self (s : ObjectStore) (p : Eid) (ns now : String) :
    (placeStore s p ns now).instances.get p =
      some ⟨p, p.getLastD "", "Placeholder", ns, false⟩ := by
  unfold placeStore
  exact Mp.get_set_self _ _ _

theorem placeStore_instances_get_ne (s : ObjectStore) (p : Eid) (ns now : String)
    {id : Eid} (hne : id ≠ p) :
    (placeStore s p ns now).instances.get id = s.instances.get id := by
  unfold placeStore
  exact Mp.get_set_ne _ _ _ _ hne

theorem isSome_get_set {α β : Type} [DecidableEq α] (m : Mp α β) (a : α) (b : β) (x : α)
    (h : (Mp.get x m).isSome) : (Mp.get x (m.set a b)).isSome := by
  by_cases hxa : x = a
  · subst hxa
    rw [Mp.get_set_self]
    rfl
  · rw [Mp.get_set_ne _ _ _ _ hxa]
    exact h

theorem ensureGo_succ_pres {fuel : Nat} {s : ObjectStore} {p : Eid} {ns now : String}
    (h : (s.instances.get p).isSome = true) :
    ensureParentExistsGo (fuel + 1) s p ns now = s := by
  simp only [ensureParentExistsGo]
  rw [if_pos h]

theorem ensureGo_succ_none {fuel : Nat} {s : ObjectStore} {p : Eid} {ns now : String}
    (h1 : ¬(s.instances.get p).isSome = true) (h2 : inferParentId p = none) :
    ensureParentExistsGo (fuel + 1) s p ns now = placeStore s p ns now := by
  simp only [ensureParentExistsGo, h2]
  rw [if_neg h1]

theorem ensureGo_succ_skip {fuel : Nat} {s : ObjectStore} {p gp : Eid} {ns now : String}
    (h1 : ¬(s.instances.get p).isSome = true) (h2 : inferParentId p = some gp)
    (h3 : idFalsy gp = true) :
    ensureParentExistsGo (fuel + 1) s p ns now = placeStore s p ns now := by
  simp only [ensureParentExistsGo, h2]
  rw [if_neg h1, if_pos h3]

theorem ensureGo_succ_rec {fuel : Nat} {s : ObjectStore} {p gp : Eid} {ns now : String}
    (h1 : ¬(s.instances.get p).isSome = true) (h2 : inferParentId p = some gp)
    (h3 : ¬idFalsy gp = true) :
    ensureParentExistsGo (fuel + 1) s p ns now =
      addRelationship
        (addRelationship (ensureParentExistsGo fuel (placeStore s p ns now) gp ns now)
          p gp "HasParent")
        gp p "HasChildren" := by
  simp only [ensureParentExistsGo, h2]
  rw [if_neg h1, if_neg h3]

theorem linkParent_eq_none {s : ObjectStore} {e : Eid} {instv : OInstance} {now : String}
    (h : inferParentId e = none) : linkParent s e instv now = s := by
  simp only [linkParent, h]

theorem linkParent_eq_skip {s : ObjectStore} {e p : Eid} {instv : OInstance} {now : String}
    (h : inferParentId e = some p) (h2 : idFalsy p = true) :
    linkParent s e instv now = s := by
  simp only [linkParent, h]
  rw [if_pos h2]

theorem linkParent_eq_link {s : ObjectStore} {e p : Eid} {instv : OInstance} {now : String}
    (h : inferParentId e = some p) (h2 : ¬idFalsy p = true) :
    linkParent s e instv now =
      addRelationship
        (addRelationship
          (removeRelationshipsByType (ensureParentExists s p instv.namespaceUri now)
            e "HasParent")
          e p "HasParent")
        p e "HasChildren" := by
  simp only [linkParent, h]
  rw [if_neg h2]

theorem ensureGo_instances_mono :
    ∀ (fuel : Nat) (p : Eid) (s : ObjectStore) (ns now : String) (id : Eid),
      (s.instances.get id).isSome →
      ((ensureParentExistsGo fuel s p ns now).instances.get id).isSome := by
  intro fuel
  induction fuel with
  | zero => intro p s ns now id h; exact h
  | succ f ih =>
    intro p s ns now id h
    by_cases hpres : (s.instances.get p).isSome
    · rw [ensureGo_succ_pres hpres]
      exact h
    · have hplace : ((placeStore s p ns now).instances.get id).isSome := by
        by_cases hid : id = p
        · subst hid
          rw [placeStore_instances_get_self]
          rfl
        · rw [placeStore_instances_get_ne _ _ _ _ hid]
          exact h
      cases hgp : inferParentId p with
      | none =>
        rw [ensureGo_succ_none hpres hgp]
        exact hplace
      | some gp =>
        by_cases hfal : idFalsy gp = true
        · rw [ensureGo_succ_skip hpres hgp hfal]
          exact hplace
        · rw [ensureGo_succ_rec hpres hgp hfal, addRelationship_instances,
            addRelationship_instances]
          exact ih gp _ ns now id hplace

theorem idFalsy_eq_true {p : Eid} (h : idFalsy p = true) : p = [] ∨ p = [""] :=
  of_decide_eq_true h

theorem inferParentId_eq_none {p : Eid} (h : inferParentId p = none) : p.length ≤ 1 := by
  unfold inferParentId at h
  split at h
  · omega
  · cases h

theorem inferParentId_eq_some {p gp : Eid} (h : inferParentId p = some gp) :
    gp = p.dropLast ∧ 2 ≤ p.length := by
  unfold inferParentId at h
  split at h
  · cases h
  · cases h
    constructor
    · rfl
    · omega

theorem take_dropLast_of_le (p : Eid) (j : Nat) (h : j ≤ p.length - 1) :
    p.dropLast.take j = p.take j := by
  rw [List.dropLast_eq_take, List.take_take]
  congr 1
  omega

theorem take_ne_self_of_lt (p : Eid) (j : Nat) (h : j < p.length) : p.take j ≠ p := by
  intro hcon
  have := congrArg List.length hcon
  rw [List.length_take] at this
  omega

theorem ensureGo_chain :
    ∀ (fuel : Nat) (p : Eid) (s : ObjectStore) (ns now : String),
      p.length ≤ fuel → 1 ≤ p.length →
      (∀ j k, 1 ≤ k → k < j → j ≤ p.length → p.take k ≠ [""] →
        ((s.instances.get (p.take j)).isSome) → ((s.instances.get (p.take k)).isSome)) →
      ∀ k, 1 ≤ k → k ≤ p.length → p.take k ≠ [""] →
        ((ensureParentExistsGo fuel s p ns now).instances.get (p.take k)).isSome := by
  intro fuel
  induction fuel with
  | zero => intro p s ns now hf h1 _ k _ _ _; omega
  | succ f ih =>
    intro p s ns now hf h1 hdc k hk1 hk2 hkne
    by_cases hpres : (s.instances.get p).isSome
    · rw [ensureGo_succ_pres hpres]
      by_cases hkl : k = p.length
      · subst hkl
        rw [List.take_length]
        exact hpres
      · refine hdc p.length k hk1 (by omega) (le_refl _) hkne ?_
        rw [List.take_length]
        exact hpres
    · cases hgp : inferParentId p with
      | none =>
        rw [ensureGo_succ_none hpres hgp]
        have hlen : p.length = 1 := by
          have := inferParentId_eq_none hgp
          omega
        have hk : k = 1 := by omega
        subst hk
        have htake : p.take 1 = p := by
          conv_lhs => rw [← hlen]
          exact List.take_length p
        rw [htake, placeStore_instances_get_self]
        rfl
      | some gp =>
        obtain ⟨rfl, hlen2⟩ := inferParentId_eq_some hgp
        by_cases hfal : idFalsy p.dropLast = true
        · rw [ensureGo_succ_skip hpres hgp hfal]
          have hdl : p.dropLast = [""] := by
            rcases idFalsy_eq_true hfal with h0 | h0
            · have h2 := congrArg List.length h0
              rw [List.length_dropLast] at h2
              simp only [List.length_nil] at h2
              exact absurd h2 (by omega)
            · exact h0
          have hlp : p.length = 2 := by
            have h2 := congrArg List.length hdl
            rw [List.length_dropLast] at h2
            simp only [List.length_cons, List.length_nil] at h2
            omega
          by_cases hkl : k = p.length
          · subst hkl
            rw [List.take_length, placeStore_instances_get_self]
            rfl
          · have hk : k = 1 := by omega
            subst hk
            have ht1 : p.take 1 = [""] := by
              rw [← take_dropLast_of_le p 1 (by omega), hdl]
              rfl
            exact absurd ht1 hkne
        · rw [ensureGo_succ_rec hpres hgp hfal, addRelationship_instances,
            addRelationship_instances]
          by_cases hkl : k = p.length
          · subst hkl
            rw [List.take_length]
            refine ensureGo_instances_mono f _ _ ns now p ?_
            rw [placeStore_instances_get_self]
            rfl
          · have hklt : k < p.length := by omega
            have htake : p.dropLast.take k = p.take k :=
              take_dropLast_of_le p k (by omega)
            rw [← htake]
            refine ih p.dropLast (placeStore s p ns now) ns now ?_ ?_ ?_ k hk1 ?_ ?_
            · rw [List.length_dropLast]; omega
            · rw [List.length_dropLast]; omega
            · intro j k' hk'1 hk'j hjle hk'ne hjp
              rw [List.length_dropLast] at hjle
              have htj : p.dropLast.take j = p.take j := take_dropLast_of_le p j (by omega)
              have htk' : p.dropLast.take k' = p.take k' := take_dropLast_of_le p k' (by omega)
              rw [htj, placeStore_instances_get_ne _ _ _ _
                (take_ne_self_of_lt p j (by omega))] at hjp
              rw [htk', placeStore_instances_get_ne _ _ _ _
                (take_ne_self_of_lt p k' (by omega))]
              exact hdc j k' hk'1 hk'j (by omega) (htk' ▸ hk'ne) hjp
            · rw [List.length_dropLast]; omega
            · rw [htake]
              exact hkne

theorem ensureGo_instances_sub :
    ∀ (fuel : Nat) (p : Eid) (s : ObjectStore) (ns now : String) (id : Eid),
      1 ≤ p.length →
      ((ensureParentExistsGo fuel s p ns now).instances.get id).isSome →
      (s.instances.get id).isSome ∨ ∃ k, 1 ≤ k ∧ k ≤ p.length ∧ id = p.take k := by
  intro fuel
  induction fuel with
  | zero => intro p s ns now id _ h; exact Or.inl h
  | succ f ih =>
    intro p s ns now id hp h
    by_cases hpres : (s.instances.get p).isSome
    · rw [ensureGo_succ_pres hpres] at h
      exact Or.inl h
    · cases hgp : inferParentId p with
      | none =>
        rw [ensureGo_succ_none hpres hgp] at h
        by_cases hid : id = p
        · exact Or.inr ⟨p.length, hp, le_refl _, by rw [List.take_length]; exact hid⟩
        · rw [placeStore_instances_get_ne _ _ _ _ hid] at h
          exact Or.inl h
      | some gp =>
        obtain ⟨rfl, hlen2⟩ := inferParentId_eq_some hgp
        by_cases hfal : idFalsy p.dropLast = true
        · rw [ensureGo_succ_skip hpres hgp hfal] at h
          by_cases hid : id = p
          · exact Or.inr ⟨p.length, hp, le_refl _, by rw [List.take_length]; exact hid⟩
          · rw [placeStore_instances_get_ne _ _ _ _ hid] at h
            exact Or.inl h
        · rw [ensureGo_succ_rec hpres hgp hfal, addRelationship_instances,
            addRelationship_instances] at h
          rcases ih p.dropLast (placeStore s p ns now) ns now id
              (by rw [List.length_dropLast]; omega) h with hplace | ⟨m, hm1, hm2, hm3⟩
          · by_cases hid : id = p
            · exact Or.inr ⟨p.length, hp, le_refl _, by rw [List.take_length]; exact hid⟩
            · rw [placeStore_instances_get_ne _ _ _ _ hid] at hplace
              exact Or.inl hplace
          · rw [List.length_dropLast] at hm2
            refine Or.inr ⟨m, hm1, by omega, ?_⟩
            rw [hm3]
            exact take_dropLast_of_le p m (by omega)

end ObjectStore

theorem upsert_some_parent_chain (s : ObjectStore) (e : Eid) (v : OValue)
    (inst : OInstance) (now : String) (h : ParentChainOf s.instances) :
    ParentChainOf ((s.upsert e v (some inst) now).1).instances := by
  have hstore : ((s.upsert e v (some inst) now).1) =
      ObjectStore.linkParent
        (ObjectStore.installInstance ({ s with values := s.values.set e v }) e inst)
        e inst now := rfl
  have htinst : (ObjectStore.installInstance ({ s with values := s.values.set e v })
      e inst).instances = s.instances.set e inst := by
    rw [ObjectStore.installInstance_instances]
  rw [hstore]
  cases hpar : ObjectStore.inferParentId e with
  | none =>
    have hel : e.length ≤ 1 := ObjectStore.inferParentId_eq_none hpar
    rw [ObjectStore.linkParent_eq_none hpar, htinst]
    intro id inst0 hid k hk1 hk2 hkne
    by_cases hide : id = e
    · subst hide
      omega
    · rw [Mp.get_set_ne _ _ _ _ hide] at hid
      have hpre := h id inst0 hid k hk1 hk2 hkne
      exact ObjectStore.isSome_get_set _ _ _ _ hpre
  | some p =>
    obtain ⟨rfl, hlen2⟩ := ObjectStore.inferParentId_eq_some hpar
    by_cases hfal : ObjectStore.idFalsy e.dropLast = true
    · rw [ObjectStore.linkParent_eq_skip hpar hfal, htinst]
      have hdl : e.dropLast = [""] := by
        rcases ObjectStore.idFalsy_eq_true hfal with h0 | h0
        · have h2 := congrArg List.length h0
          rw [List.length_dropLast] at h2
          simp only [List.length_nil] at h2
          exact absurd h2 (by omega)
        · exact h0
      have hlp : e.length = 2 := by
        have h2 := congrArg List.length hdl
        rw [List.length_dropLast] at h2
        simp only [List.length_cons, List.length_nil] at h2
        omega
      intro id inst0 hid k hk1 hk2 hkne
      by_cases hide : id = e
      · subst hide
        have hk : k = 1 := by omega
        subst hk
        have ht1 : id.take 1 = [""] := by
          rw [← ObjectStore.take_dropLast_of_le id 1 (by omega), hdl]
          rfl
        exact absurd ht1 hkne
      · rw [Mp.get_set_ne _ _ _ _ hide] at hid
        have hpre := h id inst0 hid k hk1 hk2 hkne
        exact ObjectStore.isSome_get_set _ _ _ _ hpre
    · rw [ObjectStore.linkParent_eq_link hpar hfal]
      rw [ObjectStore.addRelationship_instances, ObjectStore.addRelationship_instances,
        ObjectStore.removeRelationshipsByType_instances]
      unfold ObjectStore.ensureParentExists
      have hdc : ∀ j k, 1 ≤ k → k < j → j ≤ e.dropLast.length →
          e.dropLast.take k ≠ [""] →
          (((ObjectStore.installInstance ({ s with values := s.values.set e v }) e
              inst).instances.get (e.dropLast.take j)).isSome) →
          (((ObjectStore.installInstance ({ s with values := s.values.set e v }) e
              inst).instances.get (e.dropLast.take k)).isSome) := by
        intro j k hk1 hkj hjle hkne hjp
        rw [List.length_dropLast] at hjle
        have htj : e.dropLast.take j = e.take j :=
          ObjectStore.take_dropLast_of_le e j (by omega)
        have htk : e.dropLast.take k = e.take k :=
          ObjectStore.take_dropLast_of_le e k (by omega)
        rw [htinst, htj,
          Mp.get_set_ne _ _ _ _ (ObjectStore.take_ne_self_of_lt e j (by omega))] at hjp
        rw [htinst, htk,
          Mp.get_set_ne _ _ _ _ (ObjectStore.take_ne_self_of_lt e k (by omega))]
        obtain ⟨instj, hinstj⟩ := Option.isSome_iff_exists.mp hjp
        have hlenj : (e.take j).length = j := by
          rw [List.length_take]
          omega
        have hne : (e.take j).take k ≠ [""] := by
          rw [List.take_take]
          have hmin : min k j = k := by omega
          rw [hmin, ← htk]
          exact hkne
        have := h (e.take j) instj hinstj k hk1 (by omega) hne
        rw [List.take_take] at this
        have hmin : min k j = k := by omega
        rw [hmin] at this
        exact this
      have hchain := ObjectStore.ensureGo_chain e.dropLast.length e.dropLast
        (ObjectStore.installInstance ({ s with values := s.values.set e v }) e inst)
        inst.namespaceUri now (le_refl _) (by rw [List.length_dropLast]; omega) hdc
      intro id inst0 hid k hk1 hk2 hkne
      have hsub := ObjectStore.ensureGo_instances_sub e.dropLast.length e.dropLast
        (ObjectStore.installInstance ({ s with values := s.values.set e v }) e inst)
        inst.namespaceUri now id (by rw [List.length_dropLast]; omega)
        (by rw [hid]; rfl)
      rcases hsub with hpres | ⟨m, hm1, hm2, hm3⟩
      · rw [htinst] at hpres
        by_cases hide : id = e
        · rw [hide] at hk2 hkne ⊢
          have hkd : k ≤ e.dropLast.length := by rw [List.length_dropLast]; omega
          have htk : e.dropLast.take k = e.take k :=
            ObjectStore.take_dropLast_of_le e k (by omega)
          rw [← htk]
          refine hchain k hk1 hkd ?_
          rw [htk]
          exact hkne
        · rw [Mp.get_set_ne _ _ _ _ hide] at hpres
          obtain ⟨inst1, hinst1⟩ := Option.isSome_iff_exists.mp hpres
          have hpre := h id inst1 hinst1 k hk1 hk2 hkne
          refine ObjectStore.ensureGo_instances_mono _ _ _ _ _ _ ?_
          rw [htinst]
          exact ObjectStore.isSome_get_set _ _ _ _ hpre
      · rw [List.length_dropLast] at hm2
        have hidlen : id.length = m := by
          rw [hm3, List.length_take, List.length_dropLast]
          omega
        have hkm : k < m := by omega
        have htake : id.take k = e.dropLast.take k := by
          rw [hm3, List.take_take]
          congr 1
          omega
        rw [htake] at hkne ⊢
        exact hchain k hk1 (by rw [List.length_dropLast]; omega) hkne

theorem parent_chain_applyStoreOp (s : ObjectStore) (op : StoreOp)
    (hop : op.isDelete = false) (h : ParentChainOf s.instances) :
    ParentChainOf (applyStoreOp s op).instances := by
  cases op with
  | upsertOp e v i now =>
    cases i with
    | none =>
      have hinst : (applyStoreOp s (.upsertOp e v none now)).instances = s.instances := rfl
      rw [hinst]
      exact h
    | some inst => exact upsert_some_parent_chain s e v inst now h
  | componentLink p c =>
    have hinst : (applyStoreOp s (.componentLink p c)).instances = s.instances := by
      show ((s.addRelationship p c "HasComponent").addRelationship
        c p "ComponentOf").instances = s.instances
      rw [ObjectStore.addRelationship_instances, ObjectStore.addRelationship_instances]
    rw [hinst]
    exact h
  | deleteOp e =>
    exact absurd hop (by simp [StoreOp.isDelete])
  | clearOp =>
    intro id inst0 hid
    cases hid

/-- C2 (amended): in every store state reachable by the mutating operations
other than delete — upserts (with their placeholder-parent creation), the
message handler's HasComponent/ComponentOf links, and clear — every stored
ObjectInstance whose elementId has more than one dot-segment has an
instance present for each proper dot-prefix of its elementId whose joined
string is non-empty.  The single-empty-segment prefix (parent of an id
with a leading dot, such as `.x`) is excluded: it joins to the falsy empty
string, so the source's placeholder creation skips it.  The claim's
additional requirement that the chain still holds after delete(elementId)
removes an ancestor while descendants remain is false on the code: delete
does not restore the chain (see the counterexample). -/
theorem c2_parent_chain_no_delete :
    ∀ ops : List StoreOp, (∀ op ∈ ops, op.isDelete = false) →
      ParentChainOf (runStore ops).instances := by
  suffices H : ∀ (ops : List StoreOp) (s : ObjectStore),
      (∀ op ∈ ops, op.isDelete = false) → ParentChainOf s.instances →
      ParentChainOf (ops.foldl applyStoreOp s).instances by
    intro ops hops
    exact H ops ObjectStore.initial hops (fun id i hid => by cases hid)
  intro ops
  induction ops with
  | nil => intro s _ hs; exact hs
  | cons op rest ih =>
    intro s hops hs
    rw [List.foldl_cons]
    exact ih _ (fun o ho => hops o (List.mem_cons_of_mem _ ho))
      (parent_chain_applyStoreOp s op (hops op (List.mem_cons_self _ _)) hs)

/-- C2 witness: one upsert of `a.b` (delete-free run) satisfies the parent
chain — the placeholder for `a` is created. -/
theorem c2_parent_chain_no_delete_witness :
    (∀ op ∈ ([StoreOp.upsertOp ["a", "b"] ⟨["a", "b"], .jnull, "t", none⟩
        (some ⟨["a", "b"], "b", "T", "urn:ns", false⟩) "t"] : List StoreOp),
      op.isDelete = false) ∧
    ParentChainOf (runStore [StoreOp.upsertOp ["a", "b"] ⟨["a", "b"], .jnull, "t", none⟩
        (some ⟨["a", "b"], "b", "T", "urn:ns", false⟩) "t"]).instances :=
  ⟨fun op hop => by
      rw [List.mem_singleton] at hop
      subst hop
      rfl,
   c2_parent_chain_no_delete _ (fun op hop => by
      rw [List.mem_singleton] at hop
      subst hop
      rfl)⟩

/-- C2 counterexample: upsert `a.b` (which auto-creates the placeholder
`a`), then delete `a`.  The instance `a.b` (two dot-segments) remains but
no instance for its prefix `a` exists, so the claimed invariant fails after
delete removes an ancestor while a descendant remains. -/
theorem c2_parent_chain_counterexample :
    ¬ ParentChainOf (runStore [StoreOp.upsertOp ["a", "b"] ⟨["a", "b"], .jnull, "t", none⟩
        (some ⟨["a", "b"], "b", "T", "urn:ns", false⟩) "t",
        StoreOp.deleteOp ["a"]]).instances := by
  intro h
  have hget : (runStore [StoreOp.upsertOp ["a", "b"] ⟨["a", "b"], .jnull, "t", none⟩
      (some ⟨["a", "b"], "b", "T", "urn:ns", false⟩) "t",
      StoreOp.deleteOp ["a"]]).instances.get ["a", "b"]
      = some ⟨["a", "b"], "b", "T", "urn:ns", false⟩ := by decide
  have habs : (runStore [StoreOp.upsertOp ["a", "b"] ⟨["a", "b"], .jnull, "t", none⟩
      (some ⟨["a", "b"], "b", "T", "urn:ns", false⟩) "t",
      StoreOp.deleteOp ["a"]]).instances.get (["a", "b"].take 1) = none := by decide
  have hsome := h ["a", "b"] ⟨["a", "b"], "b", "T", "urn:ns", false⟩ hget 1
    (by decide) (by decide) (by decide)
  rw [habs] at hsome
  cases hsome

theorem mem_addElem {α : Type} [DecidableEq α] (x y : α) (l : List α) :
    y ∈ addElem x l ↔ y ∈ l ∨ y = x := by
  unfold addElem
  by_cases hx : x ∈ l
  · rw [if_pos hx]
    constructor
    · exact Or.inl
    · intro h
      rcases h with h | h
      · exact h
      · rw [h]; exact hx
  · rw [if_neg hx]
    simp [List.mem_append]

theorem removeElem_cons {α : Type} [DecidableEq α] (x b : α) (u : List α) :
    removeElem x (b :: u) =
      if b = x then removeElem x u else b :: removeElem x u := rfl

theorem mem_removeElem {α : Type} [DecidableEq α] (x y : α) (l : List α) :
    y ∈ removeElem x l ↔ y ∈ l ∧ y ≠ x := by
  induction l with
  | nil => simp [removeElem]
  | cons a t ih =>
    rw [removeElem_cons]
    by_cases ha : a = x
    · subst ha
      rw [if_pos rfl, ih]
      simp only [List.mem_cons]
      constructor
      · rintro ⟨h1, h2⟩
        exact ⟨Or.inr h1, h2⟩
      · rintro ⟨h1 | h1, h2⟩
        · exact absurd h1 h2
        · exact ⟨h1, h2⟩
    · rw [if_neg ha]
      simp only [List.mem_cons, ih]
      constructor
      · rintro (h | ⟨h1, h2⟩)
        · exact ⟨Or.inl h, by rw [h]; exact ha⟩
        · exact ⟨Or.inr h1, h2⟩
      · rintro ⟨h1 | h1, h2⟩
        · exact Or.inl h1
        · exact Or.inr ⟨h1, h2⟩

theorem removeElem_idem {α : Type} [DecidableEq α] (x : α) (l : List α) :
    removeElem x (removeElem x l) = removeElem x l := by
  induction l with
  | nil => rfl
  | cons a t ih =>
    rw [removeElem_cons]
    by_cases ha : a = x
    · rw [if_pos ha]
      exact ih
    · rw [if_neg ha, removeElem_cons, if_neg ha, ih]

theorem any_iff_edgeIn (s : ObjectStore) (a b : Eid) (ty : String) :
    (ObjectStore.relsOf s a).any
        (fun r => decide (r.targetElementId = b ∧ r.relationshipTypeId = ty)) = true ↔
      EdgeIn s a b ty := by
  rw [List.any_eq_true]
  unfold EdgeIn
  constructor
  · intro ⟨r, hr, hp⟩
    exact ⟨r, hr, of_decide_eq_true hp⟩
  · intro ⟨r, hr, hp⟩
    exact ⟨r, hr, decide_eq_true hp⟩

theorem relsOf_addRelationship (s : ObjectStore) (a b : Eid) (ty : String) (x : Eid)
    (hnd : ¬ EdgeIn s a b ty) :
    ObjectStore.relsOf (s.addRelationship a b ty) x =
      if x = a then ObjectStore.relsOf s a ++ [⟨b, ty⟩] else ObjectStore.relsOf s x := by
  rw [addRelationship_eq_of_new (fun hc => hnd ((any_iff_edgeIn s a b ty).mp hc))]
  unfold ObjectStore.relsOf
  by_cases hx : x = a
  · subst hx
    rw [if_pos rfl]
    show ((s.relationships.set x (ObjectStore.relsOf s x ++ [⟨b, ty⟩])).get x).getD [] = _
    rw [Mp.get_set_self]
    rfl
  · rw [if_neg hx]
    show ((s.relationships.set a (ObjectStore.relsOf s a ++ [⟨b, ty⟩])).get x).getD [] = _
    rw [Mp.get_set_ne _ _ _ _ hx]

theorem tidxOf_addRelationship (s : ObjectStore) (a b : Eid) (ty : String) (t : Eid)
    (hnd : ¬ EdgeIn s a b ty) :
    ObjectStore.tidxOf (s.addRelationship a b ty) t =
      if t = b then addElem a (ObjectStore.tidxOf s b) else ObjectStore.tidxOf s t := by
  rw [addRelationship_eq_of_new (fun hc => hnd ((any_iff_edgeIn s a b ty).mp hc))]
  unfold ObjectStore.tidxOf
  by_cases ht : t = b
  · subst ht
    rw [if_pos rfl]
    show ((s.targetIndex.set t (addElem a (ObjectStore.tidxOf s t))).get t).getD [] = _
    rw [Mp.get_set_self]
    rfl
  · rw [if_neg ht]
    show ((s.targetIndex.set b (addElem a (ObjectStore.tidxOf s b))).get t).getD [] = _
    rw [Mp.get_set_ne _ _ _ _ ht]

theorem addRelationship_eq_of_dup_edge {s : ObjectStore} {a b : Eid} {ty : String}
    (h : EdgeIn s a b ty) : s.addRelationship a b ty = s :=
  addRelationship_eq_of_dup ((any_iff_edgeIn s a b ty).mpr h)

theorem EdgeIn_addRelationship (s : ObjectStore) (a b : Eid) (ty : String)
    (x y : Eid) (tz : String) :
    EdgeIn (s.addRelationship a b ty) x y tz ↔
      EdgeIn s x y tz ∨ (x = a ∧ y = b ∧ tz = ty) := by
  by_cases hd : EdgeIn s a b ty
  · rw [addRelationship_eq_of_dup_edge hd]
    constructor
    · exact Or.inl
    · rintro (h | ⟨rfl, rfl, rfl⟩)
      · exact h
      · exact hd
  · unfold EdgeIn
    rw [relsOf_addRelationship s a b ty x hd]
    by_cases hx : x = a
    · subst hx
      rw [if_pos rfl]
      simp only [List.mem_append, List.mem_singleton]
      constructor
      · rintro ⟨r, hr | hr, hp⟩
        · exact Or.inl ⟨r, hr, hp⟩
        · subst hr
          exact Or.inr ⟨trivial, hp.1.symm, hp.2.symm⟩
      · rintro (⟨r, hr, hp⟩ | ⟨_, rfl, rfl⟩)
        · exact ⟨r, Or.inl hr, hp⟩
        · exact ⟨⟨y, tz⟩, Or.inr rfl, rfl, rfl⟩
    · rw [if_neg hx]
      constructor
      · intro h
        exact Or.inl h
      · rintro (h | ⟨hxa, _, _⟩)
        · exact h
        · exact absurd hxa hx

theorem TIInv_addRelationship {s : ObjectStore} (a b : Eid) (ty : String)
    (h : TIInv s) : TIInv (s.addRelationship a b ty) := by
  by_cases hd : EdgeIn s a b ty
  · rw [addRelationship_eq_of_dup_edge hd]
    exact h
  · intro x t
    rw [relsOf_addRelationship s a b ty x hd, tidxOf_addRelationship s a b ty t hd]
    by_cases ht : t = b
    · subst ht
      rw [if_pos rfl]
      by_cases hx : x = a
      · subst hx
        rw [if_pos rfl]
        simp only [mem_addElem, List.mem_append, List.mem_singleton]
        constructor
        · intro _
          exact ⟨⟨t, ty⟩, Or.inr rfl, rfl⟩
        · intro _
          exact Or.inr trivial
      · rw [if_neg hx]
        rw [mem_addElem]
        constructor
        · rintro (hmem | hxa)
          · exact (h x t).mp hmem
          · exact absurd hxa hx
        · intro hex
          exact Or.inl ((h x t).mpr hex)
    · rw [if_neg ht]
      by_cases hx : x = a
      · subst hx
        rw [if_pos rfl]
        simp only [List.mem_append, List.mem_singleton]
        constructor
        · intro hmem
          obtain ⟨r, hr, hp⟩ := (h x t).mp hmem
          exact ⟨r, Or.inl hr, hp⟩
        · rintro ⟨r, hr | hr, hp⟩
          · exact (h x t).mpr ⟨r, hr, hp⟩
          · subst hr
            exact absurd hp.symm ht
      · rw [if_neg hx]
        exact h x t

theorem ShapeInv_addRelationship {s : ObjectStore} (a b : Eid) (ty : String)
    (h : ShapeInv s)
    (hnew : (ty = "HasParent" → 2 ≤ a.length ∧ b = a.dropLast) ∧
            (ty = "HasChildren" → 2 ≤ b.length ∧ a = b.dropLast)) :
    ShapeInv (s.addRelationship a b ty) := by
  by_cases hd : EdgeIn s a b ty
  · rw [addRelationship_eq_of_dup_edge hd]
    exact h
  · intro x r hr
    rw [relsOf_addRelationship s a b ty x hd] at hr
    by_cases hx : x = a
    · subst hx
      rw [if_pos rfl, List.mem_append, List.mem_singleton] at hr
      rcases hr with hr | hr
      · exact h x r hr
      · subst hr
        constructor
        · intro hty
          obtain ⟨h1, h2⟩ := hnew.1 hty
          exact ⟨h1, h2⟩
        · intro hty
          obtain ⟨h1, h2⟩ := hnew.2 hty
          exact ⟨h1, h2⟩
    · rw [if_neg hx] at hr
      exact h x r hr

theorem PairInv_addRelationship_other {s : ObjectStore} (a b : Eid) (ty : String)
    (h : PairInv s) (hty1 : ty ≠ "HasParent") (hty2 : ty ≠ "HasChildren") :
    PairInv (s.addRelationship a b ty) := by
  intro x y
  rw [EdgeIn_addRelationship, EdgeIn_addRelationship]
  constructor
  · rintro (h1 | ⟨_, _, hcon⟩)
    · exact Or.inl ((h x y).mp h1)
    · exact absurd hcon.symm hty1
  · rintro (h1 | ⟨_, _, hcon⟩)
    · exact Or.inl ((h x y).mpr h1)
    · exact absurd hcon.symm hty2

theorem RelInv_addPair {s : ObjectStore} (a : Eid) (h : RelInv s) (ha : 2 ≤ a.length) :
    RelInv ((s.addRelationship a a.dropLast "HasParent").addRelationship
      a.dropLast a "HasChildren") := by
  obtain ⟨hTI, hShape, hPair⟩ := h
  refine ⟨?_, ?_, ?_⟩
  · exact TIInv_addRelationship _ _ _ (TIInv_addRelationship _ _ _ hTI)
  · refine ShapeInv_addRelationship _ _ _
      (ShapeInv_addRelationship _ _ _ hShape ?_) ?_
    · exact ⟨fun _ => ⟨ha, rfl⟩, fun hcon => absurd hcon (by decide)⟩
    · exact ⟨fun hcon => absurd hcon (by decide), fun _ => ⟨ha, rfl⟩⟩
  · intro x y
    rw [EdgeIn_addRelationship, EdgeIn_addRelationship,
      EdgeIn_addRelationship, EdgeIn_addRelationship]
    constructor
    · rintro ((h1 | ⟨rfl, rfl, _⟩) | ⟨_, _, hcon⟩)
      · exact Or.inl (Or.inl ((hPair x y).mp h1))
      · exact Or.inr ⟨rfl, rfl, rfl⟩
      · exact absurd hcon (by decide)
    · rintro ((h1 | ⟨_, _, hcon⟩) | ⟨rfl, rfl, _⟩)
      · exact Or.inl (Or.inl ((hPair x y).mpr h1))
      · exact absurd hcon (by decide)
      · exact Or.inl (Or.inr ⟨rfl, rfl, rfl⟩)

theorem removeRelationshipsByType_eq_none {s : ObjectStore} {e : Eid} {ty : String}
    (h : s.relationships.get e = none) : s.removeRelationshipsByType e ty = s := by
  unfold ObjectStore.removeRelationshipsByType
  rw [h]

theorem removeRelationshipsByType_eq_keep {s : ObjectStore} {e : Eid} {ty : String}
    {rels : List Relationship} (h : s.relationships.get e = some rels)
    (h2 : (rels.filter (fun r => decide (r.relationshipTypeId = ty))).length = 0) :
    s.removeRelationshipsByType e ty = s := by
  unfold ObjectStore.removeRelationshipsByType
  rw [h]
  simp only [h2, if_pos]

theorem removeRelationshipsByType_eq_fold {s : ObjectStore} {e : Eid} {ty : String}
    {rels : List Relationship} (h : s.relationships.get e = some rels)
    (h2 : ¬ (rels.filter (fun r => decide (r.relationshipTypeId = ty))).length = 0) :
    s.removeRelationshipsByType e ty =
      (rels.filter (fun r => decide (r.relationshipTypeId = ty))).foldl
        (ObjectStore.cleanupReverse e
          (rels.filter (fun r => decide (r.relationshipTypeId ≠ ty))))
        (if (rels.filter (fun r => decide (r.relationshipTypeId ≠ ty))).length = 0 then
          { s with relationships := s.relationships.erase e }
        else
          { s with relationships :=
              (s.relationships.set e
                (rels.filter (fun r => decide (r.relationshipTypeId ≠ ty)))) }) := by
  unfold ObjectStore.removeRelationshipsByType
  simp only [h]
  rw [if_neg h2]

theorem cleanupReverse_relationships (e : Eid) (rem : List Relationship)
    (acc : ObjectStore) (rel : Relationship) :
    (ObjectStore.cleanupReverse e rem acc rel).relationships = acc.relationships := by
  unfold ObjectStore.cleanupReverse
  split
  · rfl
  · split
    · rfl
    · split <;> rfl

theorem foldl_relationships {α : Type} {f : ObjectStore → α → ObjectStore}
    (hf : ∀ acc x, (f acc x).relationships = acc.relationships) :
    ∀ (l : List α) (acc : ObjectStore), (l.foldl f acc).relationships = acc.relationships := by
  intro l
  induction l with
  | nil => intro acc; rfl
  | cons x t ih =>
    intro acc
    rw [List.foldl_cons, ih, hf]

theorem foldl_targetIndex {α : Type} {f : ObjectStore → α → ObjectStore}
    (hf : ∀ acc x, (f acc x).targetIndex = acc.targetIndex) :
    ∀ (l : List α) (acc : ObjectStore), (l.foldl f acc).targetIndex = acc.targetIndex := by
  intro l
  induction l with
  | nil => intro acc; rfl
  | cons x t ih =>
    intro acc
    rw [List.foldl_cons, ih, hf]

theorem relsOf_removeRelationshipsByType (s : ObjectStore) (e : Eid) (ty : String) (x : Eid) :
    ObjectStore.relsOf (s.removeRelationshipsByType e ty) x =
      if x = e then
        (ObjectStore.relsOf s e).filter (fun r => decide (r.relationshipTypeId ≠ ty))
      else ObjectStore.relsOf s x := by
  cases hm : s.relationships.get e with
  | none =>
    rw [removeRelationshipsByType_eq_none hm]
    by_cases hx : x = e
    · subst hx
      rw [if_pos rfl]
      unfold ObjectStore.relsOf
      rw [hm]
      rfl
    · rw [if_neg hx]
  | some rels =>
    have hrels : ObjectStore.relsOf s e = rels := by
      unfold ObjectStore.relsOf
      rw [hm]
      rfl
    by_cases hz : (rels.filter (fun r => decide (r.relationshipTypeId = ty))).length = 0
    · rw [removeRelationshipsByType_eq_keep hm hz]
      by_cases hx : x = e
      · subst hx
        rw [if_pos rfl, hrels]
        have hall : ∀ r ∈ rels, ¬ (r.relationshipTypeId = ty) := by
          intro r hr hcon
          have : r ∈ rels.filter (fun r => decide (r.relationshipTypeId = ty)) :=
            List.mem_filter.mpr ⟨hr, decide_eq_true hcon⟩
          rw [List.length_eq_zero.mp hz] at this
          cases this
        rw [List.filter_eq_self.mpr (fun r hr => decide_eq_true (hall r hr))]
      · rw [if_neg hx]
    · rw [removeRelationshipsByType_eq_fold hm hz]
      rw [show ∀ st : ObjectStore, ObjectStore.relsOf st x = (st.relationships.get x).getD []
        from fun _ => rfl]
      rw [foldl_relationships (cleanupReverse_relationships e _)]
      by_cases hx : x = e
      · subst hx
        rw [if_pos rfl, hrels]
        by_cases hrem : (rels.filter (fun r => decide (r.relationshipTypeId ≠ ty))).length = 0
        · rw [if_pos hrem]
          show ((s.relationships.erase x).get x).getD [] = _
          rw [Mp.get_erase_self]
          rw [List.length_eq_zero.mp hrem]
          rfl
        · rw [if_neg hrem]
          show ((s.relationships.set x _).get x).getD [] = _
          rw [Mp.get_set_self]
          rfl
      · rw [if_neg hx]
        by_cases hrem : (rels.filter (fun r => decide (r.relationshipTypeId ≠ ty))).length = 0
        · rw [if_pos hrem]
          show ((s.relationships.erase e).get x).getD [] = _
          rw [Mp.get_erase_ne _ _ _ hx]
          rfl
        · rw [if_neg hrem]
          show ((s.relationships.set e _).get x).getD [] = _
          rw [Mp.get_set_ne _ _ _ _ hx]
          rfl

theorem cleanupReverse_eq_still {e : Eid} {rem : List Relationship} {acc : ObjectStore}
    {rel : Relationship}
    (h : rem.any (fun r => decide (r.targetElementId = rel.targetElementId)) = true) :
    ObjectStore.cleanupReverse e rem acc rel = acc := by
  unfold ObjectStore.cleanupReverse
  rw [if_pos h]

theorem cleanupReverse_eq_nosrc {e : Eid} {rem : List Relationship} {acc : ObjectStore}
    {rel : Relationship}
    (h1 : ¬ rem.any (fun r => decide (r.targetElementId = rel.targetElementId)) = true)
    (h2 : acc.targetIndex.get rel.targetElementId = none) :
    ObjectStore.cleanupReverse e rem acc rel = acc := by
  unfold ObjectStore.cleanupReverse
  rw [if_neg h1]
  simp only [h2]

theorem cleanupReverse_eq_erase {e : Eid} {rem : List Relationship} {acc : ObjectStore}
    {rel : Relationship} {sources : List Eid}
    (h1 : ¬ rem.any (fun r => decide (r.targetElementId = rel.targetElementId)) = true)
    (h2 : acc.targetIndex.get rel.targetElementId = some sources)
    (h3 : (removeElem e sources).length = 0) :
    ObjectStore.cleanupReverse e rem acc rel =
      { acc with targetIndex := acc.targetIndex.erase rel.targetElementId } := by
  unfold ObjectStore.cleanupReverse
  rw [if_neg h1]
  simp only [h2]
  rw [if_pos h3]

theorem cleanupReverse_eq_set {e : Eid} {rem : List Relationship} {acc : ObjectStore}
    {rel : Relationship} {sources : List Eid}
    (h1 : ¬ rem.any (fun r => decide (r.targetElementId = rel.targetElementId)) = true)
    (h2 : acc.targetIndex.get rel.targetElementId = some sources)
    (h3 : ¬ (removeElem e sources).length = 0) :
    ObjectStore.cleanupReverse e rem acc rel =
      { acc with targetIndex :=
          (acc.targetIndex.set rel.targetElementId (removeElem e sources)) } := by
  unfold ObjectStore.cleanupReverse
  rw [if_neg h1]
  simp only [h2]
  rw [if_neg h3]

theorem tidxOf_cleanupReverse (e : Eid) (rem : List Relationship) (acc : ObjectStore)
    (rel : Relationship) (t : Eid) :
    ObjectStore.tidxOf (ObjectStore.cleanupReverse e rem acc rel) t =
      if rel.targetElementId = t ∧ ¬ (∃ r ∈ rem, r.targetElementId = t)
      then removeElem e (ObjectStore.tidxOf acc t)
      else ObjectStore.tidxOf acc t := by
  by_cases hsp : rem.any (fun r => decide (r.targetElementId = rel.targetElementId)) = true
  · rw [cleanupReverse_eq_still hsp]
    have hcond : ¬ (rel.targetElementId = t ∧ ¬ (∃ r ∈ rem, r.targetElementId = t)) := by
      rintro ⟨hrt, hno⟩
      obtain ⟨r, hr, hp⟩ := List.any_eq_true.mp hsp
      exact hno ⟨r, hr, by rw [of_decide_eq_true hp, hrt]⟩
    rw [if_neg hcond]
  · have hnorem : ¬ (∃ r ∈ rem, r.targetElementId = rel.targetElementId) := by
      intro ⟨r, hr, hp⟩
      exact hsp (List.any_eq_true.mpr ⟨r, hr, decide_eq_true hp⟩)
    cases hm : acc.targetIndex.get rel.targetElementId with
    | none =>
      rw [cleanupReverse_eq_nosrc hsp hm]
      have hemp : ObjectStore.tidxOf acc rel.targetElementId = [] := by
        unfold ObjectStore.tidxOf
        rw [hm]
        rfl
      by_cases hc : rel.targetElementId = t ∧ ¬ (∃ r ∈ rem, r.targetElementId = t)
      · rw [if_pos hc, ← hc.1, hemp]
        rfl
      · rw [if_neg hc]
    | some sources =>
      have hsrc : ObjectStore.tidxOf acc rel.targetElementId = sources := by
        unfold ObjectStore.tidxOf
        rw [hm]
        rfl
      have hcond : rel.targetElementId = t → (rel.targetElementId = t ∧
          ¬ (∃ r ∈ rem, r.targetElementId = t)) := by
        intro hrt
        exact ⟨hrt, by rw [← hrt]; exact hnorem⟩
      by_cases hlen : (removeElem e sources).length = 0
      · rw [cleanupReverse_eq_erase hsp hm hlen]
        by_cases ht : rel.targetElementId = t
        · rw [if_pos (hcond ht)]
          rw [← ht]
          show ((acc.targetIndex.erase rel.targetElementId).get rel.targetElementId).getD [] = _
          rw [Mp.get_erase_self, hsrc, List.length_eq_zero.mp hlen]
          rfl
        · rw [if_neg (fun hh => ht hh.1)]
          show ((acc.targetIndex.erase rel.targetElementId).get t).getD [] = _
          rw [Mp.get_erase_ne _ _ _ (fun hh => ht hh.symm)]
          rfl
      · rw [cleanupReverse_eq_set hsp hm hlen]
        by_cases ht : rel.targetElementId = t
        · rw [if_pos (hcond ht)]
          rw [← ht]
          show ((acc.targetIndex.set rel.targetElementId _).get rel.targetElementId).getD [] = _
          rw [Mp.get_set_self, hsrc]
          rfl
        · rw [if_neg (fun hh => ht hh.1)]
          show ((acc.targetIndex.set rel.targetElementId _).get t).getD [] = _
          rw [Mp.get_set_ne _ _ _ _ (fun hh => ht hh.symm)]
          rfl

theorem tidxOf_fold_cleanup (e : Eid) (rem : List Relationship) :
    ∀ (l : List Relationship) (acc : ObjectStore) (t : Eid),
      ObjectStore.tidxOf (l.foldl (ObjectStore.cleanupReverse e rem) acc) t =
        if (∃ r ∈ l, r.targetElementId = t) ∧ ¬ (∃ r ∈ rem, r.targetElementId = t)
        then removeElem e (ObjectStore.tidxOf acc t)
        else ObjectStore.tidxOf acc t := by
  intro l
  induction l with
  | nil =>
    intro acc t
    rw [if_neg]
    · rfl
    · rintro ⟨⟨r, hr, _⟩, _⟩
      cases hr
  | cons rel l' ih =>
    intro acc t
    have hC : (∃ r ∈ rel :: l', r.targetElementId = t) ↔
        (rel.targetElementId = t ∨ ∃ r ∈ l', r.targetElementId = t) := by
      constructor
      · rintro ⟨r, hr, hp⟩
        rcases List.mem_cons.mp hr with hr | hr
        · exact Or.inl (by rw [← hr]; exact hp)
        · exact Or.inr ⟨r, hr, hp⟩
      · rintro (h | ⟨r, hr, hp⟩)
        · exact ⟨rel, List.mem_cons_self _ _, h⟩
        · exact ⟨r, List.mem_cons_of_mem _ hr, hp⟩
    rw [List.foldl_cons, ih, tidxOf_cleanupReverse]
    by_cases hrem : ∃ r ∈ rem, r.targetElementId = t
    · rw [if_neg (fun hh => hh.2 hrem), if_neg (fun hh => hh.2 hrem),
        if_neg (fun hh => hh.2 hrem)]
    · by_cases h1 : rel.targetElementId = t
      · by_cases h2 : ∃ r ∈ l', r.targetElementId = t
        · rw [if_pos ⟨h2, hrem⟩, if_pos ⟨h1, hrem⟩,
            if_pos ⟨hC.mpr (Or.inl h1), hrem⟩, removeElem_idem]
        · rw [if_neg (fun hh => h2 hh.1), if_pos ⟨h1, hrem⟩,
            if_pos ⟨hC.mpr (Or.inl h1), hrem⟩]
      · by_cases h2 : ∃ r ∈ l', r.targetElementId = t
        · rw [if_pos ⟨h2, hrem⟩, if_neg (fun hh => h1 hh.1),
            if_pos ⟨hC.mpr (Or.inr h2), hrem⟩]
        · rw [if_neg (fun hh => h2 hh.1), if_neg (fun hh => h1 hh.1), if_neg]
          rintro ⟨hcons, _⟩
          rcases hC.mp hcons with h | h
          · exact h1 h
          · exact h2 h

theorem tidxOf_removeRelationshipsByType (s : ObjectStore) (e : Eid) (ty : String) (t : Eid) :
    ObjectStore.tidxOf (s.removeRelationshipsByType e ty) t =
      if (∃ r ∈ ObjectStore.relsOf s e, r.relationshipTypeId = ty ∧ r.targetElementId = t) ∧
         ¬ (∃ r ∈ ObjectStore.relsOf s e, r.relationshipTypeId ≠ ty ∧ r.targetElementId = t)
      then removeElem e (ObjectStore.tidxOf s t)
      else ObjectStore.tidxOf s t := by
  cases hm : s.relationships.get e with
  | none =>
    have hrels : ObjectStore.relsOf s e = [] := by
      unfold ObjectStore.relsOf
      rw [hm]
      rfl
    rw [removeRelationshipsByType_eq_none hm, hrels, if_neg]
    rintro ⟨⟨r, hr, _⟩, _⟩
    cases hr
  | some rels =>
    have hrels : ObjectStore.relsOf s e = rels := by
      unfold ObjectStore.relsOf
      rw [hm]
      rfl
    rw [hrels]
    by_cases hz : (rels.filter (fun r => decide (r.relationshipTypeId = ty))).length = 0
    · rw [removeRelationshipsByType_eq_keep hm hz, if_neg]
      rintro ⟨⟨r, hr, hty, _⟩, _⟩
      have : r ∈ rels.filter (fun r => decide (r.relationshipTypeId = ty)) :=
        List.mem_filter.mpr ⟨hr, decide_eq_true hty⟩
      rw [List.length_eq_zero.mp hz] at this
      cases this
    · rw [removeRelationshipsByType_eq_fold hm hz, tidxOf_fold_cleanup]
      have hseedt : ∀ u : Eid, ObjectStore.tidxOf
          (if (rels.filter (fun r => decide (r.relationshipTypeId ≠ ty))).length = 0 then
            { s with relationships := s.relationships.erase e }
          else
            { s with relationships :=
                (s.relationships.set e
                  (rels.filter (fun r => decide (r.relationshipTypeId ≠ ty)))) }) u
          = ObjectStore.tidxOf s u := by
        intro u
        split <;> rfl
      rw [hseedt]
      have hiff1 : (∃ r ∈ rels.filter (fun r => decide (r.relationshipTypeId = ty)),
          r.targetElementId = t) ↔
          ∃ r ∈ rels, r.relationshipTypeId = ty ∧ r.targetElementId = t := by
        constructor
        · rintro ⟨r, hr, hp⟩
          obtain ⟨hr1, hr2⟩ := List.mem_filter.mp hr
          exact ⟨r, hr1, of_decide_eq_true hr2, hp⟩
        · rintro ⟨r, hr, h1, h2⟩
          exact ⟨r, List.mem_filter.mpr ⟨hr, decide_eq_true h1⟩, h2⟩
      have hiff2 : (∃ r ∈ rels.filter (fun r => decide (r.relationshipTypeId ≠ ty)),
          r.targetElementId = t) ↔
          ∃ r ∈ rels, r.relationshipTypeId ≠ ty ∧ r.targetElementId = t := by
        constructor
        · rintro ⟨r, hr, hp⟩
          obtain ⟨hr1, hr2⟩ := List.mem_filter.mp hr
          exact ⟨r, hr1, of_decide_eq_true hr2, hp⟩
        · rintro ⟨r, hr, h1, h2⟩
          exact ⟨r, List.mem_filter.mpr ⟨hr, decide_eq_true h1⟩, h2⟩
      by_cases hc : (∃ r ∈ rels, r.relationshipTypeId = ty ∧ r.targetElementId = t) ∧
          ¬ (∃ r ∈ rels, r.relationshipTypeId ≠ ty ∧ r.targetElementId = t)
      · rw [if_pos ⟨hiff1.mpr hc.1, fun hh => hc.2 (hiff2.mp hh)⟩, if_pos hc]
      · rw [if_neg (fun hh => hc ⟨hiff1.mp hh.1, fun hh2 => hh.2 (hiff2.mpr hh2)⟩),
          if_neg hc]

theorem EdgeIn_removeRelationshipsByType (s : ObjectStore) (e : Eid) (ty : String)
    (x y : Eid) (tz : String) :
    EdgeIn (s.removeRelationshipsByType e ty) x y tz ↔
      EdgeIn s x y tz ∧ ¬ (x = e ∧ tz = ty) := by
  unfold EdgeIn
  rw [relsOf_removeRelationshipsByType]
  by_cases hx : x = e
  · subst hx
    rw [if_pos rfl]
    constructor
    · rintro ⟨r, hr, h1, h2⟩
      obtain ⟨hr1, hr2⟩ := List.mem_filter.mp hr
      refine ⟨⟨r, hr1, h1, h2⟩, ?_⟩
      rintro ⟨_, rfl⟩
      exact of_decide_eq_true hr2 h2
    · rintro ⟨⟨r, hr, h1, h2⟩, hne⟩
      have hrty : r.relationshipTypeId ≠ ty := by
        intro hcon
        exact hne ⟨rfl, by rw [← h2]; exact hcon⟩
      exact ⟨r, List.mem_filter.mpr ⟨hr, decide_eq_true hrty⟩, h1, h2⟩
  · rw [if_neg hx]
    constructor
    · intro h
      exact ⟨h, fun hh => hx hh.1⟩
    · intro h
      exact h.1

theorem TIInv_removeRelationshipsByType {s : ObjectStore} (e : Eid) (ty : String)
    (h : TIInv s) : TIInv (s.removeRelationshipsByType e ty) := by
  intro x t
  rw [relsOf_removeRelationshipsByType, tidxOf_removeRelationshipsByType]
  by_cases hx : x = e
  · subst hx
    rw [if_pos rfl]
    by_cases hc : (∃ r ∈ ObjectStore.relsOf s x, r.relationshipTypeId = ty ∧
        r.targetElementId = t) ∧
        ¬ (∃ r ∈ ObjectStore.relsOf s x, r.relationshipTypeId ≠ ty ∧ r.targetElementId = t)
    · rw [if_pos hc]
      constructor
      · intro hmem
        exact absurd ((mem_removeElem _ _ _).mp hmem).2 (fun hh => hh rfl)
      · rintro ⟨r, hr, hp⟩
        obtain ⟨hr1, hr2⟩ := List.mem_filter.mp hr
        exact absurd ⟨r, hr1, of_decide_eq_true hr2, hp⟩ hc.2
    · rw [if_neg hc]
      constructor
      · intro hmem
        obtain ⟨r, hr, hp⟩ := (h x t).mp hmem
        by_cases hrty : r.relationshipTypeId = ty
        · rcases not_and_or.mp hc with hc1 | hc2
          · exact absurd ⟨r, hr, hrty, hp⟩ hc1
          · obtain ⟨r', hr', h1', h2'⟩ := not_not.mp hc2
            exact ⟨r', List.mem_filter.mpr ⟨hr', decide_eq_true h1'⟩, h2'⟩
        · exact ⟨r, List.mem_filter.mpr ⟨hr, decide_eq_true hrty⟩, hp⟩
      · rintro ⟨r, hr, hp⟩
        obtain ⟨hr1, _⟩ := List.mem_filter.mp hr
        exact (h x t).mpr ⟨r, hr1, hp⟩
  · rw [if_neg hx]
    by_cases hc : (∃ r ∈ ObjectStore.relsOf s e, r.relationshipTypeId = ty ∧
        r.targetElementId = t) ∧
        ¬ (∃ r ∈ ObjectStore.relsOf s e, r.relationshipTypeId ≠ ty ∧ r.targetElementId = t)
    · rw [if_pos hc, mem_removeElem]
      constructor
      · rintro ⟨hmem, _⟩
        exact (h x t).mp hmem
      · intro hex
        exact ⟨(h x t).mpr hex, hx⟩
    · rw [if_neg hc]
      exact h x t

theorem ShapeInv_removeRelationshipsByType {s : ObjectStore} (e : Eid) (ty : String)
    (h : ShapeInv s) : ShapeInv (s.removeRelationshipsByType e ty) := by
  intro x r hr
  rw [relsOf_removeRelationshipsByType] at hr
  by_cases hx : x = e
  · subst hx
    rw [if_pos rfl] at hr
    exact h x r (List.mem_filter.mp hr).1
  · rw [if_neg hx] at hr
    exact h x r hr

theorem RelInv_removeThenAddPair {s : ObjectStore} (e : Eid) (h : RelInv s)
    (he : 2 ≤ e.length) :
    RelInv (((s.removeRelationshipsByType e "HasParent").addRelationship
      e e.dropLast "HasParent").addRelationship e.dropLast e "HasChildren") := by
  obtain ⟨hTI, hShape, hPair⟩ := h
  refine ⟨?_, ?_, ?_⟩
  · exact TIInv_addRelationship _ _ _ (TIInv_addRelationship _ _ _
      (TIInv_removeRelationshipsByType _ _ hTI))
  · refine ShapeInv_addRelationship _ _ _
      (ShapeInv_addRelationship _ _ _
        (ShapeInv_removeRelationshipsByType _ _ hShape) ?_) ?_
    · exact ⟨fun _ => ⟨he, rfl⟩, fun hcon => absurd hcon (by decide)⟩
    · exact ⟨fun hcon => absurd hcon (by decide), fun _ => ⟨he, rfl⟩⟩
  · intro x y
    rw [EdgeIn_addRelationship, EdgeIn_addRelationship,
      EdgeIn_addRelationship, EdgeIn_addRelationship,
      EdgeIn_removeRelationshipsByType, EdgeIn_removeRelationshipsByType]
    constructor
    · rintro ((⟨h1, hno⟩ | ⟨rfl, rfl, _⟩) | ⟨_, _, hcon⟩)
      · exact Or.inl (Or.inl ⟨(hPair x y).mp h1, by rintro ⟨_, hcon⟩; exact absurd hcon (by decide)⟩)
      · exact Or.inr ⟨rfl, rfl, rfl⟩
      · exact absurd hcon (by decide)
    · rintro ((⟨h1, _⟩ | ⟨_, _, hcon⟩) | ⟨rfl, rfl, _⟩)
      · have hxy := (hPair x y).mpr h1
        by_cases hxe : x = e
        · subst hxe
          obtain ⟨r, hr, hrt, hrty⟩ := hxy
          have hsh := (hShape x r hr).1 hrty
          exact Or.inl (Or.inr ⟨rfl, by rw [← hrt, hsh.2], rfl⟩)
        · exact Or.inl (Or.inl ⟨hxy, fun hh => hxe hh.1⟩)
      · exact absurd hcon (by decide)
      · exact Or.inl (Or.inr ⟨rfl, rfl, rfl⟩)

theorem filter_idem {α : Type} (p : α → Bool) (l : List α) :
    (l.filter p).filter p = l.filter p := by
  induction l with
  | nil => rfl
  | cons a t ih =>
    by_cases ha : p a = true
    · rw [List.filter_cons_of_pos ha, List.filter_cons_of_pos ha, ih]
    · rw [List.filter_cons_of_neg (by simpa using ha), ih]

theorem clearOutgoingStep_relationships (e : Eid) (acc : ObjectStore) (rel : Relationship) :
    (ObjectStore.clearOutgoingStep e acc rel).relationships = acc.relationships := by
  unfold ObjectStore.clearOutgoingStep
  split
  · rfl
  · split <;> rfl

theorem clearIncomingStep_targetIndex (e : Eid) (acc : ObjectStore) (src : Eid) :
    (ObjectStore.clearIncomingStep e acc src).targetIndex = acc.targetIndex := by
  unfold ObjectStore.clearIncomingStep
  split
  · rfl
  · split <;> rfl

theorem tidxOf_clearOutgoingStep (e : Eid) (acc : ObjectStore) (rel : Relationship)
    (t : Eid) :
    ObjectStore.tidxOf (ObjectStore.clearOutgoingStep e acc rel) t =
      if rel.targetElementId = t then removeElem e (ObjectStore.tidxOf acc t)
      else ObjectStore.tidxOf acc t := by
  unfold ObjectStore.clearOutgoingStep
  cases hm : acc.targetIndex.get rel.targetElementId with
  | none =>
    simp only [hm]
    have hemp : ObjectStore.tidxOf acc rel.targetElementId = [] := by
      unfold ObjectStore.tidxOf
      rw [hm]
      rfl
    by_cases ht : rel.targetElementId = t
    · rw [if_pos ht, ← ht, hemp]
      rfl
    · rw [if_neg ht]
  | some sources =>
    simp only [hm]
    have hsrc : ObjectStore.tidxOf acc rel.targetElementId = sources := by
      unfold ObjectStore.tidxOf
      rw [hm]
      rfl
    by_cases hlen : (removeElem e sources).length = 0
    · rw [if_pos hlen]
      by_cases ht : rel.targetElementId = t
      · rw [if_pos ht, ← ht]
        show ((acc.targetIndex.erase rel.targetElementId).get rel.targetElementId).getD [] = _
        rw [Mp.get_erase_self, hsrc, List.length_eq_zero.mp hlen]
        rfl
      · rw [if_neg ht]
        show ((acc.targetIndex.erase rel.targetElementId).get t).getD [] = _
        rw [Mp.get_erase_ne _ _ _ (fun hh => ht hh.symm)]
        rfl
    · rw [if_neg hlen]
      by_cases ht : rel.targetElementId = t
      · rw [if_pos ht, ← ht]
        show ((acc.targetIndex.set rel.targetElementId _).get rel.targetElementId).getD [] = _
        rw [Mp.get_set_self, hsrc]
        rfl
      · rw [if_neg ht]
        show ((acc.targetIndex.set rel.targetElementId _).get t).getD [] = _
        rw [Mp.get_set_ne _ _ _ _ (fun hh => ht hh.symm)]
        rfl

theorem tidxOf_fold_clearOut (e : Eid) :
    ∀ (l : List Relationship) (acc : ObjectStore) (t : Eid),
      ObjectStore.tidxOf (l.foldl (ObjectStore.clearOutgoingStep e) acc) t =
        if ∃ r ∈ l, r.targetElementId = t then removeElem e (ObjectStore.tidxOf acc t)
        else ObjectStore.tidxOf acc t := by
  intro l
  induction l with
  | nil =>
    intro acc t
    rw [if_neg]
    · rfl
    · rintro ⟨r, hr, _⟩
      cases hr
  | cons rel l' ih =>
    intro acc t
    have hC : (∃ r ∈ rel :: l', r.targetElementId = t) ↔
        (rel.targetElementId = t ∨ ∃ r ∈ l', r.targetElementId = t) := by
      constructor
      · rintro ⟨r, hr, hp⟩
        rcases List.mem_cons.mp hr with hr | hr
        · exact Or.inl (by rw [← hr]; exact hp)
        · exact Or.inr ⟨r, hr, hp⟩
      · rintro (h | ⟨r, hr, hp⟩)
        · exact ⟨rel, List.mem_cons_self _ _, h⟩
        · exact ⟨r, List.mem_cons_of_mem _ hr, hp⟩
    rw [List.foldl_cons, ih, tidxOf_clearOutgoingStep]
    by_cases h1 : rel.targetElementId = t
    · by_cases h2 : ∃ r ∈ l', r.targetElementId = t
      · rw [if_pos h2, if_pos h1, if_pos (hC.mpr (Or.inl h1)), removeElem_idem]
      · rw [if_neg h2, if_pos h1, if_pos (hC.mpr (Or.inl h1))]
    · by_cases h2 : ∃ r ∈ l', r.targetElementId = t
      · rw [if_pos h2, if_neg h1, if_pos (hC.mpr (Or.inr h2))]
      · rw [if_neg h2, if_neg h1, if_neg (fun hh => (hC.mp hh).elim h1 h2)]

theorem relsOf_clearOutgoing (s : ObjectStore) (e : Eid) (x : Eid) :
    ObjectStore.relsOf (s.clearOutgoing e) x =
      if x = e then [] else ObjectStore.relsOf s x := by
  unfold ObjectStore.clearOutgoing
  cases hm : s.relationships.get e with
  | none =>
    by_cases hx : x = e
    · subst hx
      rw [if_pos rfl]
      unfold ObjectStore.relsOf
      rw [hm]
      rfl
    · rw [if_neg hx]
  | some outgoing =>
    have hrel : (outgoing.foldl (ObjectStore.clearOutgoingStep e) s).relationships
        = s.relationships := foldl_relationships (clearOutgoingStep_relationships e) _ _
    by_cases hx : x = e
    · subst hx
      rw [if_pos rfl]
      show (((outgoing.foldl (ObjectStore.clearOutgoingStep x) s).relationships.erase
        x).get x).getD [] = []
      rw [Mp.get_erase_self]
      rfl
    · rw [if_neg hx]
      show (((outgoing.foldl (ObjectStore.clearOutgoingStep e) s).relationships.erase
        e).get x).getD [] = _
      rw [Mp.get_erase_ne _ _ _ hx, hrel]
      rfl

theorem tidxOf_clearOutgoing (s : ObjectStore) (e : Eid) (t : Eid) :
    ObjectStore.tidxOf (s.clearOutgoing e) t =
      if ∃ r ∈ ObjectStore.relsOf s e, r.targetElementId = t
      then removeElem e (ObjectStore.tidxOf s t)
      else ObjectStore.tidxOf s t := by
  unfold ObjectStore.clearOutgoing
  cases hm : s.relationships.get e with
  | none =>
    have hrels : ObjectStore.relsOf s e = [] := by
      unfold ObjectStore.relsOf
      rw [hm]
      rfl
    rw [hrels, if_neg]
    rintro ⟨r, hr, _⟩
    cases hr
  | some outgoing =>
    have hrels : ObjectStore.relsOf s e = outgoing := by
      unfold ObjectStore.relsOf
      rw [hm]
      rfl
    rw [hrels]
    show ObjectStore.tidxOf (outgoing.foldl (ObjectStore.clearOutgoingStep e) s) t = _
    rw [tidxOf_fold_clearOut]

theorem relsOf_clearIncomingStep (e : Eid) (acc : ObjectStore) (src : Eid) (x : Eid) :
    ObjectStore.relsOf (ObjectStore.clearIncomingStep e acc src) x =
      if x = src then
        (ObjectStore.relsOf acc src).filter (fun r => decide (r.targetElementId ≠ e))
      else ObjectStore.relsOf acc x := by
  unfold ObjectStore.clearIncomingStep
  cases hm : acc.relationships.get src with
  | none =>
    simp only [hm]
    by_cases hx : x = src
    · subst hx
      rw [if_pos rfl]
      unfold ObjectStore.relsOf
      rw [hm]
      rfl
    · rw [if_neg hx]
  | some rels =>
    simp only [hm]
    have hrels : ObjectStore.relsOf acc src = rels := by
      unfold ObjectStore.relsOf
      rw [hm]
      rfl
    by_cases hlen : (rels.filter (fun r => decide (r.targetElementId ≠ e))).length = 0
    · rw [if_pos hlen]
      by_cases hx : x = src
      · subst hx
        rw [if_pos rfl, hrels]
        show ((acc.relationships.erase x).get x).getD [] = _
        rw [Mp.get_erase_self, List.length_eq_zero.mp hlen]
        rfl
      · rw [if_neg hx]
        show ((acc.relationships.erase src).get x).getD [] = _
        rw [Mp.get_erase_ne _ _ _ hx]
        rfl
    · rw [if_neg hlen]
      by_cases hx : x = src
      · subst hx
        rw [if_pos rfl, hrels]
        show ((acc.relationships.set x _).get x).getD [] = _
        rw [Mp.get_set_self]
        rfl
      · rw [if_neg hx]
        show ((acc.relationships.set src _).get x).getD [] = _
        rw [Mp.get_set_ne _ _ _ _ hx]
        rfl

theorem relsOf_fold_clearIn (e : Eid) :
    ∀ (S : List Eid) (acc : ObjectStore) (x : Eid),
      ObjectStore.relsOf (S.foldl (ObjectStore.clearIncomingStep e) acc) x =
        if x ∈ S then
          (ObjectStore.relsOf acc x).filter (fun r => decide (r.targetElementId ≠ e))
        else ObjectStore.relsOf acc x := by
  intro S
  induction S with
  | nil =>
    intro acc x
    rw [if_neg (by intro h; cases h)]
    rfl
  | cons src S' ih =>
    intro acc x
    rw [List.foldl_cons, ih, relsOf_clearIncomingStep]
    by_cases h1 : x = src
    · subst h1
      by_cases h2 : x ∈ S'
      · rw [if_pos h2, if_pos rfl, if_pos (List.mem_cons_self _ _), filter_idem]
      · rw [if_neg h2, if_pos rfl, if_pos (List.mem_cons_self _ _)]
    · by_cases h2 : x ∈ S'
      · rw [if_pos h2, if_neg h1, if_pos (List.mem_cons_of_mem _ h2)]
      · rw [if_neg h2, if_neg h1, if_neg]
        intro hcon
        rcases List.mem_cons.mp hcon with hc | hc
        · exact h1 hc
        · exact h2 hc

theorem relsOf_clearIncoming (s : ObjectStore) (e : Eid) (x : Eid) :
    ObjectStore.relsOf (s.clearIncoming e) x =
      if x ∈ ObjectStore.tidxOf s e then
        (ObjectStore.relsOf s x).filter (fun r => decide (r.targetElementId ≠ e))
      else ObjectStore.relsOf s x := by
  unfold ObjectStore.clearIncoming
  cases hm : s.targetIndex.get e with
  | none =>
    have htid : ObjectStore.tidxOf s e = [] := by
      unfold ObjectStore.tidxOf
      rw [hm]
      rfl
    rw [htid, if_neg (by intro h; cases h)]
  | some S =>
    have htid : ObjectStore.tidxOf s e = S := by
      unfold ObjectStore.tidxOf
      rw [hm]
      rfl
    rw [htid]
    show ObjectStore.relsOf
      ({ (S.foldl (ObjectStore.clearIncomingStep e) s) with
        targetIndex :=
          ((S.foldl (ObjectStore.clearIncomingStep e) s)).targetIndex.erase e }) x = _
    have hrx : ObjectStore.relsOf
        ({ (S.foldl (ObjectStore.clearIncomingStep e) s) with
          targetIndex :=
            ((S.foldl (ObjectStore.clearIncomingStep e) s)).targetIndex.erase e }) x
        = ObjectStore.relsOf (S.foldl (ObjectStore.clearIncomingStep e) s) x := rfl
    rw [hrx, relsOf_fold_clearIn]

theorem tidxOf_clearIncoming (s : ObjectStore) (e : Eid) (t : Eid) :
    ObjectStore.tidxOf (s.clearIncoming e) t =
      if t = e then [] else ObjectStore.tidxOf s t := by
  unfold ObjectStore.clearIncoming
  cases hm : s.targetIndex.get e with
  | none =>
    by_cases ht : t = e
    · subst ht
      rw [if_pos rfl]
      unfold ObjectStore.tidxOf
      rw [hm]
      rfl
    · rw [if_neg ht]
  | some S =>
    have htfold : (S.foldl (ObjectStore.clearIncomingStep e) s).targetIndex
        = s.targetIndex := foldl_targetIndex (clearIncomingStep_targetIndex e) _ _
    by_cases ht : t = e
    · subst ht
      rw [if_pos rfl]
      show (((S.foldl (ObjectStore.clearIncomingStep t) s).targetIndex.erase
        t).get t).getD [] = []
      rw [Mp.get_erase_self]
      rfl
    · rw [if_neg ht]
      show (((S.foldl (ObjectStore.clearIncomingStep e) s).targetIndex.erase
        e).get t).getD [] = _
      rw [Mp.get_erase_ne _ _ _ ht, htfold]
      rfl

theorem removeElem_of_not_mem {α : Type} [DecidableEq α] (x : α) (l : List α)
    (h : x ∉ l) : removeElem x l = l := by
  induction l with
  | nil => rfl
  | cons a t ih =>
    unfold removeElem
    rw [if_neg (fun he : a = x => h (he ▸ List.mem_cons_self a t)),
      ih (fun hm => h (List.mem_cons_of_mem a hm))]

theorem relsOf_clearRelationships {s : ObjectStore} (e : Eid) (x : Eid)
    (hTI : TIInv s) :
    ObjectStore.relsOf (s.clearRelationships e) x =
      if x = e then []
      else (ObjectStore.relsOf s x).filter
        (fun r => decide (r.targetElementId ≠ e)) := by
  unfold ObjectStore.clearRelationships
  rw [relsOf_clearIncoming]
  by_cases hx : x = e
  · have h0 : ObjectStore.relsOf (ObjectStore.clearOutgoing s e) x = [] := by
      rw [relsOf_clearOutgoing]
      exact if_pos hx
    rw [h0, if_pos hx]
    simp only [List.filter_nil, ite_self]
  · have h0 : ObjectStore.relsOf (ObjectStore.clearOutgoing s e) x
        = ObjectStore.relsOf s x := by
      rw [relsOf_clearOutgoing]
      exact if_neg hx
    rw [h0, if_neg hx]
    by_cases hmem : x ∈ ObjectStore.tidxOf (ObjectStore.clearOutgoing s e) e
    · rw [if_pos hmem]
    · rw [if_neg hmem]
      refine (List.filter_eq_self.mpr ?_).symm
      intro r hr
      refine decide_eq_true ?_
      intro hre
      apply hmem
      have hst : x ∈ ObjectStore.tidxOf s e := (hTI x e).mpr ⟨r, hr, hre⟩
      rw [tidxOf_clearOutgoing]
      by_cases hc : ∃ r ∈ ObjectStore.relsOf s e, r.targetElementId = e
      · rw [if_pos hc]
        exact (mem_removeElem e x _).mpr ⟨hst, hx⟩
      · rw [if_neg hc]
        exact hst

theorem tidxOf_clearRelationships {s : ObjectStore} (e : Eid) (t : Eid)
    (hTI : TIInv s) :
    ObjectStore.tidxOf (s.clearRelationships e) t =
      if t = e then [] else removeElem e (ObjectStore.tidxOf s t) := by
  unfold ObjectStore.clearRelationships
  rw [tidxOf_clearIncoming]
  by_cases ht : t = e
  · rw [if_pos ht, if_pos ht]
  · rw [if_neg ht, if_neg ht, tidxOf_clearOutgoing]
    by_cases hc : ∃ r ∈ ObjectStore.relsOf s e, r.targetElementId = t
    · rw [if_pos hc]
    · rw [if_neg hc]
      refine (removeElem_of_not_mem e _ ?_).symm
      intro hst
      exact hc ((hTI e t).mp hst)

theorem EdgeIn_clearRelationships {s : ObjectStore} (e : Eid) (x y : Eid)
    (tz : String) (hTI : TIInv s) :
    EdgeIn (s.clearRelationships e) x y tz ↔
      EdgeIn s x y tz ∧ x ≠ e ∧ y ≠ e := by
  unfold EdgeIn
  rw [relsOf_clearRelationships e x hTI]
  by_cases hx : x = e
  · rw [if_pos hx]
    constructor
    · rintro ⟨r, hr, _⟩
      exact absurd hr (List.not_mem_nil r)
    · rintro ⟨_, hne, _⟩
      exact absurd hx hne
  · rw [if_neg hx]
    constructor
    · rintro ⟨r, hr, hrt, hrty⟩
      obtain ⟨hr', hp⟩ := List.mem_filter.mp hr
      refine ⟨⟨r, hr', hrt, hrty⟩, hx, ?_⟩
      intro hye
      exact (of_decide_eq_true hp) (hrt.trans hye)
    · rintro ⟨⟨r, hr, hrt, hrty⟩, _, hy⟩
      refine ⟨r, List.mem_filter.mpr ⟨hr, decide_eq_true ?_⟩, hrt, hrty⟩
      intro hre
      exact hy (hrt.symm.trans hre)

theorem RelInv_clearRelationships {s : ObjectStore} (e : Eid) (h : RelInv s) :
    RelInv (s.clearRelationships e) := by
  obtain ⟨hTI, hShape, hPair⟩ := h
  refine ⟨?_, ?_, ?_⟩
  · intro x t
    rw [relsOf_clearRelationships e x hTI, tidxOf_clearRelationships e t hTI]
    by_cases ht : t = e
    · rw [if_pos ht]
      constructor
      · intro hf
        exact absurd hf (List.not_mem_nil x)
      · rintro ⟨r, hr, hrt⟩
        by_cases hx : x = e
        · rw [if_pos hx] at hr
          exact absurd hr (List.not_mem_nil r)
        · rw [if_neg hx] at hr
          obtain ⟨_, hp⟩ := List.mem_filter.mp hr
          exact absurd (hrt.trans ht) (of_decide_eq_true hp)
    · rw [if_neg ht, mem_removeElem]
      by_cases hx : x = e
      · rw [if_pos hx]
        constructor
        · rintro ⟨_, hne⟩
          exact absurd hx hne
        · rintro ⟨r, hr, _⟩
          exact absurd hr (List.not_mem_nil r)
      · rw [if_neg hx]
        constructor
        · rintro ⟨hmem, _⟩
          obtain ⟨r, hr, hrt⟩ := (hTI x t).mp hmem
          refine ⟨r, List.mem_filter.mpr ⟨hr, decide_eq_true ?_⟩, hrt⟩
          intro hre
          exact ht (hrt.symm.trans hre)
        · rintro ⟨r, hr, hrt⟩
          obtain ⟨hr', _⟩ := List.mem_filter.mp hr
          exact ⟨(hTI x t).mpr ⟨r, hr', hrt⟩, hx⟩
  · intro x r hr
    rw [relsOf_clearRelationships e x hTI] at hr
    by_cases hx : x = e
    · rw [if_pos hx] at hr
      exact absurd hr (List.not_mem_nil r)
    · rw [if_neg hx] at hr
      exact hShape x r (List.mem_filter.mp hr).1
  · intro a b
    rw [EdgeIn_clearRelationships e a b _ hTI, EdgeIn_clearRelationships e b a _ hTI]
    constructor
    · rintro ⟨h1, h2, h3⟩
      exact ⟨(hPair a b).mp h1, h3, h2⟩
    · rintro ⟨h1, h2, h3⟩
      exact ⟨(hPair a b).mpr h1, h3, h2⟩

theorem RelInv_congr {s s' : ObjectStore}
    (h1 : s'.relationships = s.relationships)
    (h2 : s'.targetIndex = s.targetIndex) (h : RelInv s) : RelInv s' := by
  have hr : ∀ x, ObjectStore.relsOf s' x = ObjectStore.relsOf s x := by
    intro x
    unfold ObjectStore.relsOf
    rw [h1]
  have ht : ∀ t, ObjectStore.tidxOf s' t = ObjectStore.tidxOf s t := by
    intro t
    unfold ObjectStore.tidxOf
    rw [h2]
  obtain ⟨hTI, hShape, hPair⟩ := h
  refine ⟨?_, ?_, ?_⟩
  · intro a t
    rw [hr, ht]
    exact hTI a t
  · intro a r hrr
    rw [hr] at hrr
    exact hShape a r hrr
  · intro a b
    unfold EdgeIn
    rw [hr, hr]
    exact hPair a b

theorem reindexDeleted_relationships (s : ObjectStore) (e : Eid) :
    (ObjectStore.reindexDeleted s e).relationships = s.relationships := by
  unfold ObjectStore.reindexDeleted
  split <;> rfl

theorem reindexDeleted_targetIndex (s : ObjectStore) (e : Eid) :
    (ObjectStore.reindexDeleted s e).targetIndex = s.targetIndex := by
  unfold ObjectStore.reindexDeleted
  split <;> rfl

theorem reindexExisting_relationships (s : ObjectStore) (e : Eid) :
    (ObjectStore.reindexExisting s e).relationships = s.relationships := by
  unfold ObjectStore.reindexExisting
  split <;> rfl

theorem reindexExisting_targetIndex (s : ObjectStore) (e : Eid) :
    (ObjectStore.reindexExisting s e).targetIndex = s.targetIndex := by
  unfold ObjectStore.reindexExisting
  split <;> rfl

theorem installInstance_relationships (s : ObjectStore) (e : Eid) (instv : OInstance) :
    (ObjectStore.installInstance s e instv).relationships = s.relationships := by
  show (ObjectStore.reindexExisting s e).relationships = s.relationships
  exact reindexExisting_relationships s e

theorem installInstance_targetIndex (s : ObjectStore) (e : Eid) (instv : OInstance) :
    (ObjectStore.installInstance s e instv).targetIndex = s.targetIndex := by
  show (ObjectStore.reindexExisting s e).targetIndex = s.targetIndex
  exact reindexExisting_targetIndex s e

theorem RelInv_ensureGo (fuel : Nat) : ∀ (s : ObjectStore) (p : Eid) (ns now : String),
    RelInv s → RelInv (ObjectStore.ensureParentExistsGo fuel s p ns now) := by
  induction fuel with
  | zero =>
    intro s p ns now h
    exact h
  | succ fuel ih =>
    intro s p ns now h
    unfold ObjectStore.ensureParentExistsGo
    by_cases hi : (s.instances.get p).isSome
    · rw [if_pos hi]
      exact h
    · rw [if_neg hi]
      cases hp : ObjectStore.inferParentId p with
      | none =>
        simp only [hp]
        exact RelInv_congr rfl rfl h
      | some gp =>
        simp only [hp]
        obtain ⟨hgp, hlen⟩ := ObjectStore.inferParentId_eq_some hp
        subst hgp
        by_cases hfal : ObjectStore.idFalsy p.dropLast = true
        · rw [if_pos hfal]
          exact RelInv_congr rfl rfl h
        · rw [if_neg hfal]
          exact RelInv_addPair p (ih _ p.dropLast ns now (RelInv_congr rfl rfl h)) hlen

theorem RelInv_linkParent {s : ObjectStore} (e : Eid) (instv : OInstance) (now : String)
    (h : RelInv s) : RelInv (ObjectStore.linkParent s e instv now) := by
  cases hp : ObjectStore.inferParentId e with
  | none =>
    rw [ObjectStore.linkParent_eq_none hp]
    exact h
  | some parentId =>
    obtain ⟨hgp, hlen⟩ := ObjectStore.inferParentId_eq_some hp
    subst hgp
    by_cases hfal : ObjectStore.idFalsy e.dropLast = true
    · rw [ObjectStore.linkParent_eq_skip hp hfal]
      exact h
    · rw [ObjectStore.linkParent_eq_link hp hfal]
      exact RelInv_removeThenAddPair e
        (RelInv_ensureGo e.dropLast.length s e.dropLast instv.namespaceUri now h) hlen

theorem RelInv_upsert {s : ObjectStore} (e : Eid) (v : OValue) (inst : Option OInstance)
    (now : String) (h : RelInv s) : RelInv ((s.upsert e v inst now).1) := by
  cases inst with
  | none =>
    show RelInv { s with values := s.values.set e v }
    exact RelInv_congr rfl rfl h
  | some instv =>
    show RelInv (ObjectStore.linkParent
      (ObjectStore.installInstance ({ s with values := s.values.set e v }) e instv)
      e instv now)
    refine RelInv_linkParent e instv now ?_
    exact RelInv_congr (installInstance_relationships _ _ _)
      (installInstance_targetIndex _ _ _) h

theorem RelInv_delete {s : ObjectStore} (e : Eid) (h : RelInv s) :
    RelInv ((s.delete e).1) := by
  show RelInv { (ObjectStore.clearRelationships (ObjectStore.reindexDeleted s e) e) with
      values := ((ObjectStore.clearRelationships (ObjectStore.reindexDeleted s e)
        e)).values.erase e }
  refine RelInv_congr rfl rfl ?_
  exact RelInv_clearRelationships e
    (RelInv_congr (reindexDeleted_relationships s e) (reindexDeleted_targetIndex s e) h)

theorem RelInv_componentLink {s : ObjectStore} (p c : Eid) (h : RelInv s) :
    RelInv ((s.addRelationship p c "HasComponent").addRelationship c p "ComponentOf") := by
  obtain ⟨hTI, hShape, hPair⟩ := h
  refine ⟨?_, ?_, ?_⟩
  · exact TIInv_addRelationship _ _ _ (TIInv_addRelationship _ _ _ hTI)
  · refine ShapeInv_addRelationship _ _ _
      (ShapeInv_addRelationship _ _ _ hShape ?_) ?_
    · exact ⟨fun hc => absurd hc (by decide), fun hc => absurd hc (by decide)⟩
    · exact ⟨fun hc => absurd hc (by decide), fun hc => absurd hc (by decide)⟩
  · exact PairInv_addRelationship_other _ _ _
      (PairInv_addRelationship_other _ _ _ hPair (by decide) (by decide))
      (by decide) (by decide)

theorem RelInv_of_empty {s : ObjectStore} (h1 : s.relationships = [])
    (h2 : s.targetIndex = []) : RelInv s := by
  have hr : ∀ x, ObjectStore.relsOf s x = [] := by
    intro x
    unfold ObjectStore.relsOf
    rw [h1]
    rfl
  have ht : ∀ t, ObjectStore.tidxOf s t = [] := by
    intro t
    unfold ObjectStore.tidxOf
    rw [h2]
    rfl
  refine ⟨?_, ?_, ?_⟩
  · intro a t
    rw [hr, ht]
    simp
  · intro a r hrr
    rw [hr] at hrr
    exact absurd hrr (List.not_mem_nil r)
  · intro a b
    unfold EdgeIn
    rw [hr, hr]
    simp

theorem RelInv_applyStoreOp {s : ObjectStore} (op : StoreOp) (h : RelInv s) :
    RelInv (applyStoreOp s op) := by
  cases op with
  | upsertOp e v i now => exact RelInv_upsert e v i now h
  | componentLink p c => exact RelInv_componentLink p c h
  | deleteOp e => exact RelInv_delete e h
  | clearOp => exact RelInv_of_empty rfl rfl

theorem RelInv_runStore_foldl (ops : List StoreOp) : ∀ s : ObjectStore, RelInv s →
    RelInv (ops.foldl applyStoreOp s) := by
  induction ops with
  | nil =>
    intro s h
    exact h
  | cons op t ih =>
    intro s h
    rw [List.foldl_cons]
    exact ih _ (RelInv_applyStoreOp op h)

/-- C3: in every store state reachable from a fresh store by the exposed
operations — upsert with instance (including its placeholder-parent
creation and organizational re-linking), the message handler's
HasComponent/ComponentOf additions, delete and clear — every stored
(source, target, HasParent) edge has a matching (target, source,
HasChildren) edge and vice-versa. -/
theorem c3_bidirectional_edges (ops : List StoreOp) (a b : Eid) :
    EdgeIn (runStore ops) a b "HasParent" ↔ EdgeIn (runStore ops) b a "HasChildren" :=
  (RelInv_runStore_foldl ops ObjectStore.initial (RelInv_of_empty rfl rfl)).2.2 a b

theorem paramNames_nil : paramNames [] = [] := rfl

theorem paramNames_lit (s : List Char) (ps : List TPart) :
    paramNames (TPart.lit s :: ps) = paramNames ps := rfl

theorem paramNames_param (n : List Char) (ps : List TPart) :
    paramNames (TPart.param n :: ps) = n :: paramNames ps := rfl

theorem findSome_isSome_of_mem {α β : Type} (f : α → Option β) (l : List α) (a : α)
    (ha : a ∈ l) (b : β) (hb : f a = some b) : (l.findSome? f).isSome := by
  cases hm : l.findSome? f with
  | some c => rfl
  | none =>
    have hnone := List.findSome?_eq_none_iff.mp hm a ha
    rw [hb] at hnone
    cases hnone

theorem matchParts_sound : ∀ (parts : List TPart) (input : List Char)
    (vals : List (List Char)), matchParts parts input = some vals →
    interleaveParts parts vals = input ∧
      vals.length = (paramNames parts).length := by
  intro parts
  induction parts with
  | nil =>
    intro input vals h
    simp only [matchParts] at h
    by_cases hi : input = []
    · rw [if_pos hi] at h
      cases h
      exact ⟨hi.symm, rfl⟩
    · rw [if_neg hi] at h
      cases h
  | cons p ps ih =>
    cases p with
    | lit s =>
      intro input vals h
      simp only [matchParts] at h
      by_cases hc : input.take s.length = s
      · rw [if_pos hc] at h
        obtain ⟨hint, hlen⟩ := ih _ _ h
        constructor
        · show s ++ interleaveParts ps vals = input
          rw [hint]
          conv_rhs => rw [← List.take_append_drop s.length input]
          rw [hc]
        · exact hlen
      · rw [if_neg hc] at h
        cases h
    | param n =>
      intro input vals h
      simp only [matchParts] at h
      obtain ⟨k, hk, hf⟩ := List.exists_of_findSome?_eq_some h
      cases hm : matchParts ps (input.drop (k + 1)) with
      | none =>
        rw [hm] at hf
        cases hf
      | some caps =>
        rw [hm] at hf
        cases hf
        obtain ⟨hint, hlen⟩ := ih _ _ hm
        constructor
        · show input.take (k + 1) ++ interleaveParts ps caps = input
          rw [hint, List.take_append_drop]
        · show caps.length + 1 = (paramNames (TPart.param n :: ps)).length
          rw [paramNames_param, List.length_cons, hlen]

theorem matchParts_complete : ∀ (parts : List TPart) (σ : List Char → List Char),
    (∀ n ∈ paramNames parts, σ n ≠ [] ∧ '/' ∉ σ n) →
    (matchParts parts (substParts parts σ)).isSome := by
  intro parts
  induction parts with
  | nil =>
    intro σ hσ
    rfl
  | cons p ps ih =>
    cases p with
    | lit s =>
      intro σ hσ
      show (matchParts (TPart.lit s :: ps) (s ++ substParts ps σ)).isSome
      simp only [matchParts]
      rw [List.take_left, if_pos rfl, List.drop_left]
      exact ih σ hσ
    | param n =>
      intro σ hσ
      have hn : n ∈ paramNames (TPart.param n :: ps) := by
        rw [paramNames_param]
        exact List.mem_cons_self _ _
      obtain ⟨hne, hns⟩ := hσ n hn
      have hih := ih σ (fun m hm => hσ m (by
        rw [paramNames_param]
        exact List.mem_cons_of_mem _ hm))
      obtain ⟨caps, hm⟩ := Option.isSome_iff_exists.mp hih
      show (matchParts (TPart.param n :: ps) (σ n ++ substParts ps σ)).isSome
      simp only [matchParts]
      have hlen1 : 1 ≤ (σ n).length := by
        cases hq : σ n with
        | nil => exact absurd hq hne
        | cons c t => simp
      have htw : (σ n).length ≤
          ((σ n ++ substParts ps σ).takeWhile (fun c => decide (c ≠ '/'))).length := by
        rw [List.takeWhile_append_of_pos ?hall]
        case hall =>
          intro c hc
          exact decide_eq_true (fun hce => hns (hce ▸ hc))
        rw [List.length_append]
        omega
      have hd : (σ n).length - 1 + 1 = (σ n).length := by omega
      refine findSome_isSome_of_mem _ _ ((σ n).length - 1) ?_
        (((σ n ++ substParts ps σ).take ((σ n).length - 1 + 1)) :: caps) ?_
      · rw [List.mem_reverse, List.mem_range]
        omega
      · rw [hd, List.drop_left, hm]

theorem foldl_set_get_not_mem (L : List (List Char × List Char)) :
    ∀ (m : Mp (List Char) (List Char)) (n : List Char), n ∉ L.map Prod.fst →
    ((L.foldl (fun m p => m.set p.1 p.2) m)).get n = m.get n := by
  induction L with
  | nil =>
    intro m n _
    rfl
  | cons p T ih =>
    intro m n hn
    rw [List.map_cons] at hn
    have h1 : n ≠ p.1 := fun he => hn (he ▸ List.mem_cons_self _ _)
    have h2 : n ∉ T.map Prod.fst := fun hm => hn (List.mem_cons_of_mem _ hm)
    rw [List.foldl_cons, ih _ n h2, Mp.get_set_ne _ _ _ _ h1]

theorem foldl_set_get_mem (L : List (List Char × List Char)) :
    (L.map Prod.fst).Nodup →
    ∀ (m : Mp (List Char) (List Char)) (n v : List Char), (n, v) ∈ L →
    ((L.foldl (fun m p => m.set p.1 p.2) m)).get n = some v := by
  induction L with
  | nil =>
    intro _ m n v hm
    exact absurd hm (List.not_mem_nil _)
  | cons p T ih =>
    intro hnd m n v hm
    rw [List.map_cons, List.nodup_cons] at hnd
    rw [List.foldl_cons]
    rcases List.mem_cons.mp hm with hm | hm
    · cases hm
      rw [foldl_set_get_not_mem T _ _ hnd.1, Mp.get_set_self]
    · exact ih hnd.2 _ n v hm

theorem capturesOf_get (names vals : List (List Char)) (hnd : names.Nodup)
    (hlen : vals.length = names.length) (n v : List Char)
    (hm : (n, v) ∈ names.zip vals) : (capturesOf names vals).get n = some v := by
  refine foldl_set_get_mem _ ?_ _ n v hm
  rw [List.map_fst_zip names vals (le_of_eq hlen.symm)]
  exact hnd

theorem renderParts_eq_interleave (caps : Mp (List Char) (List Char)) :
    ∀ (parts : List TPart) (vals : List (List Char)),
    vals.length = (paramNames parts).length →
    (∀ nv ∈ (paramNames parts).zip vals, caps.get nv.1 = some nv.2) →
    renderParts parts caps = interleaveParts parts vals := by
  intro parts
  induction parts with
  | nil =>
    intro vals _ _
    rfl
  | cons p ps ih =>
    cases p with
    | lit s =>
      intro vals hlen hget
      show s ++ renderParts ps caps = s ++ interleaveParts ps vals
      rw [ih vals hlen hget]
    | param n =>
      intro vals hlen hget
      rw [paramNames_param, List.length_cons] at hlen
      cases vals with
      | nil => cases hlen
      | cons v vs =>
        rw [List.length_cons] at hlen
        have hv : caps.get n = some v := by
          refine hget (n, v) ?_
          rw [paramNames_param, List.zip_cons_cons]
          exact List.mem_cons_self _ _
        show ((caps.get n).getD []) ++ renderParts ps caps
          = v ++ interleaveParts ps vs
        rw [hv]
        show v ++ renderParts ps caps = v ++ interleaveParts ps vs
        rw [ih vs (by omega) (fun nv hnv => hget nv (by
          rw [paramNames_param, List.zip_cons_cons]
          exact List.mem_cons_of_mem _ hnv))]

/-- C6 (amended): for every topic pattern P and topic t obtained by
substituting non-empty slash-free strings for P's placeholders, matching t
against the compiled pattern succeeds — for every pattern, duplicate
parameter names included; and when P's parameter names are pairwise
distinct, rendering the PATTERN with the resulting captures reproduces t
(the distinctness proviso scopes the render clause only).  (The claim's
`render(t, captures) == t` with the topic itself as the template is
refuted by the counterexample: a substituted value that happens to contain
a placeholder of its own is re-expanded.) -/
theorem c6_substitution_match_render (P : List Char) (σ : List Char → List Char)
    (hσ : ∀ n ∈ paramNames (parsePattern P), σ n ≠ [] ∧ '/' ∉ σ n) :
    ∃ caps, matchTopic (substParts (parsePattern P) σ) P = some caps ∧
      ((paramNames (parsePattern P)).Nodup →
        renderTemplate P caps = substParts (parsePattern P) σ) := by
  have hc := matchParts_complete (parsePattern P) σ hσ
  obtain ⟨vals, hm⟩ := Option.isSome_iff_exists.mp hc
  obtain ⟨hint, hlen⟩ := matchParts_sound (parsePattern P) _ vals hm
  refine ⟨capturesOf (paramNames (parsePattern P)) vals, ?_, ?_⟩
  · unfold matchTopic
    rw [hm]
  · intro hnd
    unfold renderTemplate
    rw [renderParts_eq_interleave _ (parsePattern P) vals hlen
      (fun nv hnv => capturesOf_get _ _ hnd hlen nv.1 nv.2 hnv), hint]

/-- Closed instantiation of the amended C6 theorem: P is a two-parameter
pattern with a slash literal, the substitution is `sigC6`. -/
theorem c6_substitution_match_render_witness :
    (∀ n ∈ paramNames (parsePattern ("\x7ba\x7d/\x7bb\x7d".data)),
        sigC6 n ≠ [] ∧ '/' ∉ sigC6 n) ∧
    ∃ caps,
      matchTopic (substParts (parsePattern ("\x7ba\x7d/\x7bb\x7d".data)) sigC6)
        ("\x7ba\x7d/\x7bb\x7d".data) = some caps ∧
      ((paramNames (parsePattern ("\x7ba\x7d/\x7bb\x7d".data))).Nodup →
        renderTemplate ("\x7ba\x7d/\x7bb\x7d".data) caps
          = substParts (parsePattern ("\x7ba\x7d/\x7bb\x7d".data)) sigC6) :=
  ⟨by decide,
    c6_substitution_match_render ("\x7ba\x7d/\x7bb\x7d".data) sigC6 (by decide)⟩

/-- C6 as stated fails: substituting the (slash-free, non-empty) values of
`sigC6cx` into the pattern a-slash-b gives a topic whose own template only
names b (a name of the pattern, satisfying the claim's proviso), matching
succeeds, yet rendering the topic with the captures replaces the
substituted placeholder text and does not reproduce the topic. -/
theorem c6_render_roundtrip_counterexample :
    ¬ (∀ (P : List Char) (σ : List Char → List Char),
        (∀ n ∈ paramNames (parsePattern P), σ n ≠ [] ∧ '/' ∉ σ n) →
        (∀ n ∈ paramNames (parsePattern (substParts (parsePattern P) σ)),
            n ∈ paramNames (parsePattern P)) →
        ∀ caps, matchTopic (substParts (parsePattern P) σ) P = some caps →
          renderTemplate (substParts (parsePattern P) σ) caps
            = substParts (parsePattern P) σ) := by
  intro h
  have hcaps : matchTopic
      (substParts (parsePattern ("\x7ba\x7d/\x7bb\x7d".data)) sigC6cx)
      ("\x7ba\x7d/\x7bb\x7d".data)
      = some [(['a'], "\x7bb\x7d".data), (['b'], ['z'])] := by decide
  have hren := h ("\x7ba\x7d/\x7bb\x7d".data) sigC6cx (by decide) (by decide)
    [(['a'], "\x7bb\x7d".data), (['b'], ['z'])] hcaps
  revert hren
  decide

